import Mathlib

/-!
Verification of the pywfplan workforce-planning core.

This file gives a shallow embedding of the optimisation core of pywfplan:
the symbolic regular-expression algebra with its normalising smart
constructors and Brzozowski derivatives (`src/regexp_impl.h`,
`src/regexp_impl_s.h`, `src/regexp.h`), the DFA builder / random sampler
(`fsm.h`), the simulated-annealing driver (`anneal.h`), the target curve
(`src/target.h`), the plan (`src/plan.h`), the staffing energy
(`staff_energy.cpp`) and the planner state (`staff_state.h`).

Machine doubles are modelled as rationals (exact field arithmetic),
C++ vectors as Lean lists, unordered sets and maps as lists with
lookup modulo the source's equality; random draws are modelled by an
oracle function supplying every outcome, and unbounded loops by fuel.
-/

namespace Pywfplan

/-! ## Regular expressions (`regexp_impl.h`)

`Rex` mirrors the class hierarchy `Zer`, `One`, `Lit`, `Sum`, `And`,
`Prd`, `Kst`.  The C++ `Sum`/`And` hold an `unordered_set` of children
keyed by the structural equality `equal` and `Prd` an ordered vector; we
represent all three as lists, and model set insertion by `sinsert`,
which skips elements already present modulo `requal`. -/

inductive Rex (T : Type) where
  | zer : Rex T
  | one : Rex T
  | lit (c : T) : Rex T
  | sum (items : List (Rex T)) : Rex T
  | and (items : List (Rex T)) : Rex T
  | prd (items : List (Rex T)) : Rex T
  | kst (r : Rex T) : Rex T

variable {T : Type} [DecidableEq T]

/-- The numeric type tags of `regexp_impl.h` (`Zer::Type = 1`, ...,
`Kst::Type = 7`). -/
def rtype : Rex T → Nat
  | .zer => 1
  | .one => 2
  | .lit _ => 3
  | .sum _ => 4
  | .and _ => 5
  | .prd _ => 6
  | .kst _ => 7

mutual
/-- Structural equality `Rex::equal`: `Sum`/`And` compare as sets
(equal sizes and every member of the left set occurs, modulo `requal`,
in the right one), `Prd` compares positionally, `Lit` by letter. -/
def requal : Rex T → Rex T → Bool
  | .zer, .zer => true
  | .one, .one => true
  | .lit a, .lit b => decide (a = b)
  | .sum xs, .sum ys => decide (xs.length = ys.length) && rincl xs ys
  | .and xs, .and ys => decide (xs.length = ys.length) && rincl xs ys
  | .prd xs, .prd ys => decide (xs.length = ys.length) && reqList xs ys
  | .kst x, .kst y => requal x y
  | _, _ => false

/-- Every element of the first list has a `requal` match in the second
(the `find` loop of `Sum::equal` / `And::equal`). -/
def rincl : List (Rex T) → List (Rex T) → Bool
  | [], _ => true
  | x :: xs, ys => rmem x ys && rincl xs ys

/-- Membership modulo `requal` (`unordered_set::find` with the
`rex_ptr_eq` comparator). -/
def rmem : Rex T → List (Rex T) → Bool
  | _, [] => false
  | x, y :: ys => requal x y || rmem x ys

/-- Positional list equality (the loop of `Prd::equal`). -/
def reqList : List (Rex T) → List (Rex T) → Bool
  | [], [] => true
  | x :: xs, y :: ys => requal x y && reqList xs ys
  | _, _ => false
end

mutual
/-- `Rex::nullable`: `Sum` is any-of, `And`/`Prd` are all-of. -/
def nullableB : Rex T → Bool
  | .zer => false
  | .one => true
  | .lit _ => false
  | .sum xs => anyNullable xs
  | .and xs => allNullable xs
  | .prd xs => allNullable xs
  | .kst _ => true

def anyNullable : List (Rex T) → Bool
  | [] => false
  | x :: xs => nullableB x || anyNullable xs

def allNullable : List (Rex T) → Bool
  | [] => true
  | x :: xs => nullableB x && allNullable xs
end

/-- `RegExp::nu`: `One` if nullable else `Zero`. -/
def nu (r : Rex T) : Rex T := if nullableB r then .one else .zer

/-- Insertion into a `rex_ptr_set_t`: a no-op when an element equal
modulo `requal` is already present. -/
def sinsert (s : List (Rex T)) (x : Rex T) : List (Rex T) :=
  if rmem x s then s else s ++ [x]

/-- Insert a range of elements (`unordered_set::insert(first, last)`). -/
def sinsertAll (s : List (Rex T)) (xs : List (Rex T)) : List (Rex T) :=
  xs.foldl sinsert s

/-- `Sum::make` from `regexp_impl_s.h`: drops `Zero` operands,
collapses `requal` operands, flattens nested sums into one set. -/
def sumMake (r s : Rex T) : Rex T :=
  if rtype r = 1 then s
  else if rtype s = 1 then r
  else if requal r s then r
  else
    match r, s with
    | .sum rs, .sum ss => .sum (sinsertAll (sinsertAll [] rs) ss)
    | .sum rs, _ => .sum (sinsert (sinsertAll [] rs) s)
    | _, .sum ss => .sum (sinsert (sinsertAll [] ss) r)
    | _, _ => .sum [r, s]

/-- `And::make`: `Zero` absorbs, `requal` operands collapse, nested
ands flatten. -/
def andMake (r s : Rex T) : Rex T :=
  if rtype r = 1 then r
  else if rtype s = 1 then s
  else if requal r s then r
  else
    match r, s with
    | .and rs, .and ss => .and (sinsertAll (sinsertAll [] rs) ss)
    | .and rs, _ => .and (sinsert (sinsertAll [] rs) s)
    | _, .and ss => .and (sinsert (sinsertAll [] ss) r)
    | _, _ => .and [r, s]

/-- `Prd::make`: `Zero` absorbs, `One` is an identity, two adjacent
stars of `requal` bodies collapse, nested products flatten into one
ordered sequence.  The distribution over sums is commented out in the
source and therefore absent here. -/
def prdMake (r s : Rex T) : Rex T :=
  if rtype r = 1 ∨ rtype s = 2 then r
  else if rtype s = 1 ∨ rtype r = 2 then s
  else
    match r, s with
    | .kst ri, .kst si =>
      if requal ri si then .kst ri
      else .prd [.kst ri, .kst si]
    | .prd rs, .prd ss => .prd (rs ++ ss)
    | .prd rs, _ => .prd (rs ++ [s])
    | _, .prd ss => .prd (r :: ss)
    | _, _ => .prd [r, s]

/-- `Kst::make`: `ε* ≈ ε`, `∅* ≈ ε`, `(r*)* ≈ r*`. -/
def kstMake (r : Rex T) : Rex T :=
  if rtype r = 2 ∨ rtype r = 1 then .one
  else if rtype r = 7 then r
  else .kst r

mutual
/-- Brzozowski derivative `Rex::derivative`.  The `Sum` case folds the
non-`Zero` derivatives into a set and rebuilds via `Sum::make`; the
`And` case short-circuits to `Zero` and rebuilds the raw `And` node;
the `Prd` case splits into `head`/`tail` exactly as the source
(`tail()` returns the second item when the product is binary and the
product of the remaining items otherwise). -/
def rderiv (x : T) : Rex T → Rex T
  | .zer => .zer
  | .one => .zer
  | .lit c => if x = c then .one else .zer
  | .sum items =>
    match derivSet x items [] with
    | [] => .zer
    | [d] => d
    | ds => ds.foldl sumMake .zer
  | .and items =>
    match derivAnd x items [] with
    | none => .zer
    | some [] => .zer
    | some [d] => d
    | some ds => .and ds
  | .prd [] => .zer
  | .prd (i0 :: [s]) =>
    if nullableB i0 then sumMake (prdMake (rderiv x i0) s) (rderiv x s)
    else prdMake (rderiv x i0) s
  | .prd (i0 :: rest) =>
    if nullableB i0 then
      sumMake (prdMake (rderiv x i0) (.prd rest)) (rderiv x (.prd rest))
    else prdMake (rderiv x i0) (.prd rest)
  | .kst r => prdMake (rderiv x r) (kstMake r)
termination_by r => sizeOf r
decreasing_by all_goals (simp_wf <;> omega)

/-- The set of non-`Zero` derivatives collected by `Sum::derivative`. -/
def derivSet (x : T) : List (Rex T) → List (Rex T) → List (Rex T)
  | [], acc => acc
  | r :: rs, acc =>
    let d := rderiv x r
    if rtype d = 1 then derivSet x rs acc else derivSet x rs (sinsert acc d)
termination_by l _ => sizeOf l
decreasing_by all_goals (simp_wf <;> omega)

/-- The short-circuiting accumulation of `And::derivative` (`none`
models the early `return` of the `Zero` derivative). -/
def derivAnd (x : T) : List (Rex T) → List (Rex T) → Option (List (Rex T))
  | [], acc => some acc
  | r :: rs, acc =>
    let d := rderiv x r
    if rtype d = 1 then none else derivAnd x rs (sinsert acc d)
termination_by l _ => sizeOf l
decreasing_by all_goals (simp_wf <;> omega)
end

/-- Word derivative (`RegExp::derivative(w)`): fold the letter
derivative over the word. -/
def derivWord (r : Rex T) (w : List T) : Rex T :=
  w.foldl (fun t l => rderiv l t) r

/-- `RegExp::match`: `derivative(w).nu() == one`. -/
def rmatch (r : Rex T) (w : List T) : Bool :=
  requal (nu (derivWord r w)) .one

/-! ### The structural equality `requal` is an equivalence

`requal` compares `Sum`/`And` children as finite sets modulo `requal`
itself.  Reflexivity and transitivity hold unconditionally; symmetry
needs the sets to be duplicate-free (which the smart constructors
guarantee), because the comparison only checks inclusion of the left
set in the right one together with equal cardinalities. -/

/-! ### Normal forms

`normB` captures the invariants the smart constructors establish:
`Sum`/`And`/`Prd` nodes hold at least two children, none of which is
`Zero` or a node of the same flattenable kind (`Prd` children are also
never `One`), `Sum`/`And` children are pairwise distinct modulo
`requal`, and `Kst` bodies are never `Zero`, `One` or a star. -/

/-- Duplicate-freeness modulo `requal` of an `unordered_set` of
sub-expressions. -/
def nodupR : List (Rex T) → Bool
  | [] => true
  | x :: xs => !(rmem x xs) && nodupR xs

/-- No element has one of the listed type tags. -/
def noTypes (ts : List ℕ) (xs : List (Rex T)) : Bool :=
  xs.all fun x => decide (rtype x ∉ ts)

mutual
def normB : Rex T → Bool
  | .zer => true
  | .one => true
  | .lit _ => true
  | .sum xs => decide (2 ≤ xs.length) && noTypes [1, 4] xs && nodupR xs && normList xs
  | .and xs => decide (2 ≤ xs.length) && noTypes [1, 5] xs && nodupR xs && normList xs
  | .prd xs => decide (2 ≤ xs.length) && noTypes [1, 2, 6] xs && normList xs
  | .kst r => decide (rtype r ≠ 1 ∧ rtype r ≠ 2 ∧ rtype r ≠ 7) && normB r

def normList : List (Rex T) → Bool
  | [] => true
  | x :: xs => normB x && normList xs
end

mutual
/-- The weaker shape invariant that `rderiv` preserves: like `normB`,
but `And` children may themselves be `And` or `One` nodes, because
`And::derivative` rebuilds a raw `And` from the derivative set instead
of going through `And::make`.  Constructor-built regexes satisfy it
(`normB` implies it), and every derivative of an `nfB` regex is `nfB`
again (`nfB_rderiv`). -/
def nfB : Rex T → Bool
  | .zer => true
  | .one => true
  | .lit _ => true
  | .sum xs => decide (2 ≤ xs.length) && noTypes [1, 4] xs && nodupR xs && nfList xs
  | .and xs => decide (2 ≤ xs.length) && noTypes [1] xs && nodupR xs && nfList xs
  | .prd xs => decide (2 ≤ xs.length) && noTypes [1, 2, 6] xs && nfList xs
  | .kst r => decide (rtype r ≠ 1 ∧ rtype r ≠ 2 ∧ rtype r ≠ 7) && nfB r

def nfList : List (Rex T) → Bool
  | [] => true
  | x :: xs => nfB x && nfList xs
end

/-! ### Set insertion lemmas -/

/-! ### Characterising `Sum::make` as a set union

`melems r` is the set of summands `r` stands for: the children when `r`
is a `Sum` node, nothing when `r` is `Zero`, and `r` itself otherwise.
`mkSumOfSet` is the inverse embedding. -/

def melems : Rex T → List (Rex T)
  | .zer => []
  | .sum xs => xs
  | r => [r]

def mkSumOfSet : List (Rex T) → Rex T
  | [] => .zer
  | [x] => x
  | xs => .sum xs

/-! ## The DFA (`fsm.h`)

An `Fsm` holds the data the C++ constructor builds: the ordered
alphabet (`alphabet_` with its inverse map `alphabet_map_`), the set of
accepting states (`finals_`), the matching view `trans_state_map_`
`(q0, letter_idx) ↦ q1`, the sampling views `state_states_map_`
`q0 ↦ successors` and `trans_letters_map_` `(q0, q1) ↦ buckets of
letter indices`.  The C++ maps become association lists. -/

structure Fsm (T : Type) where
  alphabet : List T
  finals : List ℕ
  transState : List ((ℕ × ℕ) × ℕ)
  stateStates : List (ℕ × List ℕ)
  transLetters : List ((ℕ × ℕ) × List (List ℕ))

/-- Association-list lookup (`std::map::find`). -/
def alookup {α β : Type} [DecidableEq α] (k : α) : List (α × β) → Option β
  | [] => none
  | (k', v) :: t => if k = k' then some v else alookup k t

/-- Index of a letter in the alphabet (`alphabet_map_` lookup). -/
def idxOf (l : T) : List T → Option ℕ
  | [] => none
  | c :: cs => if l = c then some 0 else (idxOf l cs).map (· + 1)

/-- `Fsm::match` from an arbitrary state: follow `trans_state_map_`,
returning `false` on unknown letters or missing transitions, and test
membership of the final state in `finals_`. -/
def fsmMatchFrom (F : Fsm T) : ℕ → List T → Bool
  | s, [] => decide (s ∈ F.finals)
  | s, l :: ls =>
    match idxOf l F.alphabet with
    | none => false
    | some li =>
      match alookup (s, li) F.transState with
      | none => false
      | some s1 => fsmMatchFrom F s1 ls

/-- `Fsm::match`: start at state 1. -/
def fsmMatch (F : Fsm T) (w : List T) : Bool := fsmMatchFrom F 1 w

/-- Result of one iteration of the `while` loop of `Fsm::sample`:
normal return (`break`), continuation to the next state, the fatal
`"dangling state in fsm"` error, or an out-of-bounds vector access
(undefined behaviour in the C++, impossible on built automata). -/
inductive StepRes (T : Type) where
  | done (w : List T)
  | next (q : ℕ) (k : ℕ) (acc : List T)
  | failure
  | undef

/-- Uniform pick from a non-empty vector, as the source writes it:
`v.size() > 1 ? v[draw % size] : v[0]`, with the random draw supplied
by the oracle. -/
def pick {α : Type} (d : α) (l : List α) (n : ℕ) : α :=
  l.getD (if 1 < l.length then n % l.length else 0) d

/-- One iteration of `Fsm::sample`.  Random draws are modelled by the
oracle `o`: the stop coin is `o k % 2`, the successor, bucket and
letter picks use `o (k+1)`, `o (k+2)`, `o (k+3)`. -/
def sampleStep (F : Fsm T) (o : ℕ → ℕ) (q k : ℕ) (acc : List T) : StepRes T :=
  if q ∈ F.finals ∧ o k % 2 = 0 then .done acc
  else
    match alookup q F.stateStates with
    | none => if q ∈ F.finals then .done acc else .failure
    | some [] => if q ∈ F.finals then .done acc else .failure
    | some (q1h :: q1t) =>
      match alookup (q, pick 0 (q1h :: q1t) (o (k + 1))) F.transLetters with
      | none => if q ∈ F.finals then .done acc else .failure
      | some [] => if q ∈ F.finals then .done acc else .failure
      | some (bh :: bt) =>
        match pick [] (bh :: bt) (o (k + 2)) with
        | [] => .undef
        | lth :: ltt =>
          match F.alphabet.get? (pick 0 (lth :: ltt) (o (k + 3))) with
          | none => .undef
          | some l => .next (pick 0 (q1h :: q1t) (o (k + 1))) (k + 4) (acc ++ [l])

/-- Outcome of `Fsm::sample`: a produced word, the dangling-state
error, undefined behaviour, or exhausted fuel. -/
inductive SampleRes (T : Type) where
  | ok (w : List T)
  | fail
  | undef
  | fuelOut

/-- The `while (true)` loop of `Fsm::sample`, with fuel. -/
def sampleLoop (F : Fsm T) (o : ℕ → ℕ) : ℕ → ℕ → ℕ → List T → SampleRes T
  | 0, _, _, _ => .fuelOut
  | fuel + 1, q, k, acc =>
    match sampleStep F o q k acc with
    | .done w => .ok w
    | .failure => .fail
    | .undef => .undef
    | .next q1 k1 acc1 => sampleLoop F o fuel q1 k1 acc1

/-- `Fsm::sample`: walk from state 1 with an empty word. -/
def sample (F : Fsm T) (o : ℕ → ℕ) (fuel : ℕ) : SampleRes T :=
  sampleLoop F o fuel 1 0 []

/-! ## The DFA builder (`Fsm::build`)

`build` explores the regex by iterated derivatives: states are keyed on
regexes modulo the structural equality `requal` (the C++
`unordered_map` over `RegExp` hashes and compares via `equal`), state 1
is the start regex, and a derivative state is marked accepting when its
`ν` is `One` — note that this marking happens only for *targets* of
transitions, never for state 1 itself.  Recursion is modelled with
fuel; the source recurses without bound (termination follows from the
finiteness of the derivative set, which the source assumes). -/

structure BState (T : Type) where
  rmap : List (Rex T × ℕ)
  finals : List ℕ
  trans : List ((ℕ × ℕ) × ℕ)

/-- The alphabet with letter indices (`alphabet_map_` as index/letter
pairs, in index order). -/
def enumIdx : ℕ → List T → List (ℕ × T)
  | _, [] => []
  | i, c :: cs => (i, c) :: enumIdx (i + 1) cs

/-- Lookup in `regexp_map` (keyed modulo `requal`). -/
def rlookup (r : Rex T) : List (Rex T × ℕ) → Option ℕ
  | [] => none
  | (r', i) :: t => if requal r r' then some i else rlookup r t

/-- `std::set<uint>::insert`. -/
def insertNat (i : ℕ) (l : List ℕ) : List ℕ :=
  if i ∈ l then l else l ++ [i]

mutual
/-- `Fsm::build(q0, q0_idx, regexp_map)`: expand every letter of the
alphabet from state `q0`. -/
def buildFrom (alphabet : List T) : ℕ → Rex T → ℕ → BState T → BState T
  | 0, _, _, st => st
  | fuel + 1, q0, q0i, st => buildList alphabet fuel q0 q0i (enumIdx 0 alphabet) st
termination_by fuel _ _ _ => (fuel, 0)

/-- The per-letter body of `Fsm::build`: skip `Zero` derivatives,
allocate a fresh state id (`regexp_map.size() + 1`) for unseen
derivatives and recurse into them, record the transition, and insert
the target into `finals_` whenever its `ν` equals `One`. -/
def buildList (alphabet : List T) :
    ℕ → Rex T → ℕ → List (ℕ × T) → BState T → BState T
  | _, _, _, [], st => st
  | fuel, q0, q0i, (li, l) :: rest, st =>
    let q1 := rderiv l q0
    if rtype q1 = 1 then buildList alphabet fuel q0 q0i rest st
    else
      match rlookup q1 st.rmap with
      | none =>
        let q1i := st.rmap.length + 1
        let st1 : BState T :=
          { rmap := st.rmap ++ [(q1, q1i)]
            finals := if requal (nu q1) .one then insertNat q1i st.finals
              else st.finals
            trans := st.trans ++ [((q0i, li), q1i)] }
        buildList alphabet fuel q0 q0i rest (buildFrom alphabet fuel q1 q1i st1)
      | some q1i =>
        let st1 : BState T :=
          { st with
            finals := if requal (nu q1) .one then insertNat q1i st.finals
              else st.finals
            trans := st.trans ++ [((q0i, li), q1i)] }
        buildList alphabet fuel q0 q0i rest st1
termination_by fuel _ _ rest _ => (fuel, rest.length + 1)
end

mutual
/-- `Rex::traverse` restricted to collecting literals, in traversal
order. -/
def litsOf : Rex T → List T
  | .zer => []
  | .one => []
  | .lit c => [c]
  | .sum xs => litsOfList xs
  | .and xs => litsOfList xs
  | .prd xs => litsOfList xs
  | .kst r => litsOf r

def litsOfList : List (Rex T) → List T
  | [] => []
  | r :: rs => litsOf r ++ litsOfList rs
end

/-- `RegExp::alphabet`: the set of letters of the `Lit` descendants
(the C++ `unordered_set` iterates in unspecified order; we fix the
first-occurrence order). -/
def alphabetOf (r : Rex T) : List T :=
  (litsOf r).foldl (fun acc c => if c ∈ acc then acc else acc ++ [c]) []

/-- The state built by the `Fsm` constructor: `regexp_map` seeded with
`(r, 1)` and then `build(r, 1, states)`. -/
def buildDfa (r : Rex T) (fuel : ℕ) : BState T :=
  buildFrom (alphabetOf r) fuel r 1 ⟨[(r, 1)], [], []⟩

/-- `Fsm::match` against a built state (walk `trans_state_map_` from
state 1, accept iff the final state is in `finals_`). -/
def bmatchFrom (alphabet : List T) (st : BState T) : ℕ → List T → Bool
  | s, [] => decide (s ∈ st.finals)
  | s, l :: ls =>
    match idxOf l alphabet with
    | none => false
    | some li =>
      match alookup (s, li) st.trans with
      | none => false
      | some s1 => bmatchFrom alphabet st s1 ls

def bmatch (alphabet : List T) (st : BState T) (w : List T) : Bool :=
  bmatchFrom alphabet st 1 w

/-- The regex `10·(1+2) + 20·(2+1)`.  Its derivative by `10` is the
set element `1+2` and its derivative by `20` is `2+1`: distinct terms
that are `requal`, so the constructor collapses them into a single
state. -/
def rexCollapse : Rex ℕ :=
  .sum [.prd [.lit 10, .sum [.lit 1, .lit 2]],
        .prd [.lit 20, .sum [.lit 2, .lit 1]]]

/-- A three-state DFA for `rexCollapse` with the collapsed middle
state: both the `10`- and the `20`-transition out of the start state
reach state 2. -/
def fsmCollapse : Fsm ℕ :=
  { alphabet := [10, 1, 2, 20]
    finals := [3]
    transState := [((1, 0), 2), ((1, 3), 2), ((2, 1), 3), ((2, 2), 3)]
    stateStates := [(1, [2]), (2, [3])]
    transLetters := [((1, 2), [[0], [3]]), ((2, 3), [[1], [2]])] }

/-- The regex labelling of `fsmCollapse`: state 2 carries `1+2`, the
derivative stored first; the derivative reaching it along `20` is
`2+1`, equal to it only modulo `requal`. -/
def labelCollapse : ℕ → Rex ℕ :=
  fun q => if q = 1 then rexCollapse
    else if q = 2 then .sum [.lit 1, .lit 2]
    else if q = 3 then .one else .zer

/-- A DFA whose only state is accepting and has no outgoing
transitions. -/
def fsmStuck : Fsm ℕ :=
  { alphabet := [1], finals := [1], transState := [],
    stateStates := [], transLetters := [] }

/-! ## The annealer (`anneal.h`)

Doubles become rationals.  The state's `mutate`/`delta_energy` and the
random draw inside the Metropolis test are abstracted by oracles: an
acceptance oracle answers, for each trial, whether
`Δ < 0 ∨ U(0,1) < exp(−Δ/T)` held (the test involves the real
exponential, so only its boolean outcome is modelled). -/

/-- The acceptance ratio `χ = a / n` of one `calibrateTi` round: `a`
acceptances out of `nover / 50` trials, with the counter `n` starting
at 1 and incremented once per trial. -/
def calibChi (accept : ℕ → ℕ → Bool) (m k : ℕ) : ℚ :=
  (((List.range m).filter (fun i => accept k i)).length : ℚ) / ((m : ℚ) + 1)

/-- The `while (chi < CHI0)` loop of `Anneal::calibrateTi`: each pass
runs one trial round, measures `χ`, then doubles `t0` — the doubling
happens before the loop condition is re-tested, so the bound-meeting
`t0` is doubled once more before being returned. -/
def calibrateTiGo (accept : ℕ → ℕ → Bool) (m : ℕ) : ℕ → ℕ → ℚ → Option ℚ
  | 0, _, _ => none
  | fuel + 1, k, t0 =>
    if calibChi accept m k < 9 / 10 then
      calibrateTiGo accept m fuel (k + 1) (2 * t0)
    else some (2 * t0)

/-- `Anneal::calibrateTi`: `t0` starts at `2.0`, `χ` starts at `0` (so
the loop always runs at least once). -/
def calibrateTi (accept : ℕ → ℕ → Bool) (m fuel : ℕ) : Option ℚ :=
  calibrateTiGo accept m fuel 0 2

/-- Operations `Anneal::anneal` performs on its state, in order. -/
inductive AnnealOp where
  | mutOp
  | applyOp
  | energyOp
deriving DecidableEq, Repr

/-- The inner trial loop of `anneal`: up to `nover` trials, each a
`mutate()` followed by a Metropolis test; an accepted trial commits
with `apply_mutation()`; the loop breaks once `accepted > nover / 50`. -/
def annealInner (accept : ℕ → Bool) (nlimit : ℕ) :
    ℕ → ℕ → ℕ → List AnnealOp × ℕ × ℕ
  | 0, idx, l => ([], idx, l)
  | k + 1, idx, l =>
    let step : List AnnealOp × ℕ × ℕ :=
      if accept idx then ([.mutOp, .applyOp], idx + 1, l + 1)
      else ([.mutOp], idx + 1, l)
    if step.2.2 > nlimit then (step.1, step.2.1, step.2.2)
    else
      let rest := annealInner accept nlimit k step.2.1 step.2.2
      (step.1 ++ rest.1, rest.2.1, rest.2.2)

/-- The temperature-step loop of `anneal`: after each inner loop the
energy is re-read from the state (`e = state_.energy()`), and the run
stops early when fewer than 10 mutations were accepted at this level. -/
def annealSteps (accept : ℕ → Bool) (nover nlimit : ℕ) :
    ℕ → ℕ → List AnnealOp
  | 0, _ => []
  | n + 1, idx =>
    let inner := annealInner accept nlimit nover idx 0
    if inner.2.2 < 10 then inner.1 ++ [.energyOp]
    else inner.1 ++ [.energyOp] ++ annealSteps accept nover nlimit n inner.2.1

/-- `Anneal::anneal(ti, tf, delta_t)`: the four argument checks, in
source order, precede every use of the state; after them the initial
`e = state_.energy()` read and the step loop run.  The step count,
computed in the source as `round((log tf − log ti)/log delta_t)` over
machine doubles, is abstracted as the parameter `steps`.  The result
pairs the exception outcome with the trace of state operations. -/
def anneal (ti tf dt : ℚ) (steps nover : ℕ) (accept : ℕ → Bool) :
    Except String Unit × List AnnealOp :=
  if ti ≤ 0 then (.error "ti > 0", [])
  else if tf ≤ 0 then (.error "tf > 0", [])
  else if ti ≤ tf then (.error "ti > tf", [])
  else if 1 ≤ dt ∨ dt < 0 then (.error "0 < delta_t < 1", [])
  else (.ok (), .energyOp :: annealSteps accept nover (nover / 50) steps 0)

/-! ## The target curve (`target.h`) -/

/-- `SLOT_LENGTH` and `SLOTS_DAY` from `config.h`: 5-minute slots, 288
slots per day. -/
def SLOT_LENGTH : ℕ := 5

def SLOTS_DAY : ℕ := 24 * 60 / SLOT_LENGTH

/-- The subsampling loop of the `Target` constructor: each input point
is repeated `ratio` times. -/
def upsample (ratio : ℕ) : List ℚ → List ℚ
  | [] => []
  | t :: ts => List.replicate ratio t ++ upsample ratio ts

/-- The `Target` constructor: validate the slot length and the number
of data points, repeat each point `slot_length / 5` times, then pad
with zeros from `size % SLOTS_DAY` up to `SLOTS_DAY` (note: a full
extra day of zeros is appended when the size is already a multiple of
`SLOTS_DAY`). -/
def targetInit (slot_length days : ℕ) (target : List ℚ) :
    Except String (List ℚ) :=
  if slot_length < 5 then
    .error "invalid slot length, should be a multiple of 5 minutes"
  else if slot_length % 5 ≠ 0 then
    .error "invalid subsampling ratio, must be a multiple of 5 minutes"
  else if target.length < days * (24 * 60 / slot_length) then
    .error "too few target points"
  else
    let up := upsample (slot_length / 5) target
    .ok (up ++ List.replicate (SLOTS_DAY - up.length % SLOTS_DAY) 0)

/-! ## Shifts and the plan (`shift.h`, `plan.h`)

The `Shift` implementation (the `shift.cpp` translation unit) is the
second segment of `src/src/pywfplan_ext.cpp`. -/

/-- A shift: a code and an ordered list of half-open work intervals in
minutes from midnight; an empty list is a rest shift (the `work_`
flag, which every `Shift` constructor sets to `!span.empty()`, is
represented by that emptiness rather than stored). -/
structure Shift where
  code : String
  span : List (ℕ × ℕ)
deriving DecidableEq, Repr

/-- `Shift::work` (`pywfplan_ext.cpp` line 311) returns the stored
`work_` flag; both constructors set it to `!span.empty()`. -/
def Shift.work (s : Shift) : Bool := !s.span.isEmpty

/-- Add `c` to `curve[i0 .. i1)`, clipped to the curve's length. -/
def addRange (curve : List ℚ) (i0 i1 : ℕ) (c : ℚ) : List ℚ :=
  curve.mapIdx fun j x => if i0 ≤ j ∧ j < i1 then x + c else x

/-- `Shift::add_staff(day, c, stf)` (`pywfplan_ext.cpp` lines
317-327): for each interval `s` of the span, add `c` to the slots
`[day·S + s.first/L, day·S + s.second/L)` where `L = SLOT_LENGTH` and
`S = SLOTS_DAY`, the inner loop stopping at `stf.size()` (the `mapIdx`
of `addRange` only touches existing indices, the same clipping). -/
def addStaff (s : Shift) (day : ℕ) (c : ℚ) (curve : List ℚ) : List ℚ :=
  s.span.foldl
    (fun cur sp =>
      addRange cur (day * SLOTS_DAY + sp.1 / SLOT_LENGTH)
        (day * SLOTS_DAY + sp.2 / SLOT_LENGTH) c)
    curve

/-- The default-constructed rest shift. -/
def restShift : Shift := ⟨"", []⟩

/-- The fields of `plan::Plan` the claims touch: the assignment matrix
`plan_` (one row of `days` shifts per agent), the cumulative staffing
curve `staffing_`, `days_` and `offset_` (in slots). -/
structure PlanState where
  rows : List (List Shift)
  staffing : List ℚ
  days : ℕ
  offset : ℕ
deriving DecidableEq, Repr

/-- The assignment loop of `Plan::updatePlan`: for `i = 0, 1, ...` as
long as `i < line.size()` and `day + i < plan_.size()` — the second
bound is the number of AGENTS (the outer vector's size), not the row
length in days — assign `row[day+i] := line[i]`.  (In the C++, an
assignment with `day+i` at or past the row's end is an out-of-bounds
write; `List.set` leaves the list unchanged there.) -/
def updLine (nAgents : ℕ) (day : ℕ) : List Shift → ℕ → List Shift → List Shift
  | row, _, [] => row
  | row, i, l :: ls =>
    if day + i < nAgents then updLine nAgents day (row.set (day + i) l) (i + 1) ls
    else row

/-- `Plan::updatePlan(agent_idx, day, plan)`. -/
def updatePlan (p : PlanState) (agent_idx day : ℕ) (line : List Shift) :
    Except String PlanState :=
  if day > p.days then .error "day exceed plan length"
  else
    .ok { p with
      rows := p.rows.set agent_idx
        (updLine p.rows.length day (p.rows.getD agent_idx []) 0 line) }

/-! ## The planner state (`staff_state.h`) -/

/-- The staffing scratch vectors `State::mutate` computes: both of
length `weekSlots`, zeroed, then filled with the current
(`prev_stf_`) and candidate (`mutd_stf_`) contributions of the mutated
agent over the week, day indices `0..6`. -/
def mutateStf (p : PlanState) (week mutdIdx : ℕ) (mutdPln : List Shift) :
    List ℚ × List ℚ :=
  let zeros : List ℚ := List.replicate (7 * SLOTS_DAY + p.offset) 0
  ((List.range 7).foldl
      (fun cur d =>
        addStaff ((p.rows.getD mutdIdx []).getD (week * 7 + d) restShift) d 1 cur)
      zeros,
    (List.range 7).foldl
      (fun cur d => addStaff (mutdPln.getD d restShift) d 1 cur) zeros)

/-- `State::apply_mutation`: copy the candidate line into the plan via
`updatePlan(mutd_idx, week*7, mutd_pln)`, then add
`mutd_stf[i] − prev_stf[i]` to `staffing_[week·7·S + i]` for
`i < weekSlots` (out-of-range writes, undefined behaviour in the C++,
are clipped by `mapIdx`). -/
def applyMutation (p : PlanState) (week mutdIdx : ℕ) (mutdPln : List Shift)
    (prev mutd : List ℚ) : Except String PlanState :=
  (updatePlan p mutdIdx (week * 7) mutdPln).map fun p1 =>
    { p1 with
      staffing := p1.staffing.mapIdx fun j x =>
        if week * 7 * SLOTS_DAY ≤ j ∧
            j < week * 7 * SLOTS_DAY + (7 * SLOTS_DAY + p.offset) then
          x + (mutd.getD (j - week * 7 * SLOTS_DAY) 0 -
            prev.getD (j - week * 7 * SLOTS_DAY) 0)
        else x }

/-- The staffing curve recomputed from scratch: a zero curve of the
same length, plus every assigned shift's contribution at its absolute
day index (as the `State` constructor seeds it). -/
def staffingFromScratch (p : PlanState) : List ℚ :=
  p.rows.foldl
    (fun cur row =>
      (List.range p.days).foldl
        (fun cur2 d => addStaff (row.getD d restShift) d 1 cur2) cur)
    (List.replicate p.staffing.length 0)

/-! ## The staffing energy (`staff_energy.cpp`) -/

/-- `staffing_energy::energy`: mean squared staffing error over the
week window `[slot0, slot0 + n)` (the curves are abstracted as
functions, matching the real-arithmetic reading of the doubles). -/
def staffingEnergy (stf trg : ℕ → ℚ) (slot0 n : ℕ) : ℚ :=
  (∑ i in Finset.range n, (stf (slot0 + i) - trg (slot0 + i)) ^ 2) / n

/-- `staffing_energy::delta(prev_stf, mutd_stf)`: the incremental
update `Σ e1·e2 / n` with `e1 = mutd[i] − prev[i]` and
`e2 = e1 + 2·staffing[slot0+i] − 2·target[slot0+i]`. -/
def staffingDelta (stf trg : ℕ → ℚ) (slot0 n : ℕ) (prev mutd : ℕ → ℚ) : ℚ :=
  (∑ i in Finset.range n,
      (mutd i - prev i) *
        (mutd i - prev i + 2 * stf (slot0 + i) - 2 * trg (slot0 + i))) / n

/-- The staffing curve after adding `mutd − prev` slotwise over the
week window. -/
def staffingAfter (stf : ℕ → ℚ) (slot0 n : ℕ) (prev mutd : ℕ → ℚ) : ℕ → ℚ :=
  fun j => if slot0 ≤ j ∧ j < slot0 + n then
    stf j + (mutd (j - slot0) - prev (j - slot0)) else stf j

/-- The failing input for C1: a plan with two agents and seven days,
all rest. -/
def c1plan : PlanState :=
  { rows := [List.replicate 7 restShift, List.replicate 7 restShift],
    staffing := List.replicate (7 * SLOTS_DAY) 0, days := 7, offset := 0 }

def c1line : List Shift :=
  [⟨"A", [(0, 5)]⟩, ⟨"B", [(0, 5)]⟩, ⟨"C", [(0, 5)]⟩, ⟨"D", [(0, 5)]⟩,
    ⟨"E", [(0, 5)]⟩, ⟨"F", [(0, 5)]⟩, ⟨"G", [(0, 5)]⟩]

/-- The failing input for C2: one agent, seven days, all rest, with a
consistent zero staffing curve. -/
def c2plan : PlanState :=
  { rows := [List.replicate 7 restShift],
    staffing := List.replicate (7 * SLOTS_DAY) 0, days := 7, offset := 0 }

/-- The candidate weekly line for C2: a working shift on day 1. -/
def c2mutd : List Shift :=
  [restShift, ⟨"W", [(0, 10)]⟩, restShift, restShift, restShift, restShift,
    restShift]

/-! ## Theorems -/

theorem rmatch_eq_nullable (r : Rex T) (w : List T) :
    rmatch r w = nullableB (derivWord r w) := by
  unfold rmatch nu
  by_cases h : nullableB (derivWord r w) <;> simp [h, requal]

theorem rmem_iff {x : Rex T} {ys : List (Rex T)} :
    rmem x ys = true ↔ ∃ y ∈ ys, requal x y = true := by
  induction ys with
  | nil => simp [rmem]
  | cons y ys ih => simp [rmem, ih, Bool.or_eq_true]

theorem rincl_iff {xs ys : List (Rex T)} :
    rincl xs ys = true ↔ ∀ x ∈ xs, rmem x ys = true := by
  induction xs with
  | nil => simp [rincl]
  | cons x xs ih => simp [rincl, ih, Bool.and_eq_true]

theorem reqList_iff {xs ys : List (Rex T)} :
    reqList xs ys = true ↔ List.Forall₂ (fun a b => requal a b = true) xs ys := by
  induction xs generalizing ys with
  | nil => cases ys <;> simp [reqList]
  | cons x xs ih =>
    cases ys with
    | nil => simp [reqList]
    | cons y ys => simp [reqList, Bool.and_eq_true, ih, List.forall₂_cons]

omit [DecidableEq T] in

theorem sizeOf_rex_pos (r : Rex T) : 1 ≤ sizeOf r := by
  cases r <;> simp

theorem requal_refl (r : Rex T) : requal r r = true := by
  have key : ∀ (n : ℕ) (r : Rex T), sizeOf r ≤ n → requal r r = true := by
    intro n
    induction n with
    | zero => intro r hr; exact absurd hr (by have := sizeOf_rex_pos r; omega)
    | succ n ih =>
      intro r hr
      have hmem : ∀ (xs : List (Rex T)), sizeOf xs ≤ n + 1 →
          rincl xs xs = true := by
        intro xs hxs
        rw [rincl_iff]
        intro x hx
        rw [rmem_iff]
        refine ⟨x, hx, ih x ?_⟩
        have := List.sizeOf_lt_of_mem hx
        omega
      cases r with
      | zer => simp [requal]
      | one => simp [requal]
      | lit c => simp [requal]
      | sum xs =>
        simp only [requal, Bool.and_eq_true, decide_eq_true_iff]
        exact ⟨by simp, hmem xs (by simp at hr; omega)⟩
      | and xs =>
        simp only [requal, Bool.and_eq_true, decide_eq_true_iff]
        exact ⟨by simp, hmem xs (by simp at hr; omega)⟩
      | prd xs =>
        simp only [requal, Bool.and_eq_true, decide_eq_true_iff]
        refine ⟨by simp, ?_⟩
        rw [reqList_iff]
        refine List.forall₂_same.2 fun x hx => ih x ?_
        have := List.sizeOf_lt_of_mem hx
        simp at hr
        omega
      | kst r =>
        simp only [requal]
        exact ih r (by simp at hr; omega)
  exact key (sizeOf r) r le_rfl

theorem requal_trans :
    ∀ (x y z : Rex T), requal x y = true → requal y z = true →
      requal x z = true := by
  have key : ∀ (n : ℕ) (x : Rex T), sizeOf x ≤ n → ∀ (y z : Rex T),
      requal x y = true → requal y z = true → requal x z = true := by
    intro n
    induction n with
    | zero => intro x hx; exact absurd hx (by have := sizeOf_rex_pos x; omega)
    | succ n ih =>
      intro x hx y z hxy hyz
      have hincl : ∀ (xs ys zs : List (Rex T)), sizeOf xs ≤ n + 1 →
          rincl xs ys = true → rincl ys zs = true → rincl xs zs = true := by
        intro xs ys zs hxs h1 h2
        rw [rincl_iff] at h1 h2 ⊢
        intro a ha
        obtain ⟨b, hb, hab⟩ := rmem_iff.1 (h1 a ha)
        obtain ⟨c, hc, hbc⟩ := rmem_iff.1 (h2 b hb)
        refine rmem_iff.2 ⟨c, hc, ?_⟩
        refine ih a ?_ b c hab hbc
        have := List.sizeOf_lt_of_mem ha
        omega
      cases x with
      | zer => cases y <;> simp_all [requal]
      | one => cases y <;> simp_all [requal]
      | lit a =>
        cases y <;> simp_all [requal]
      | sum xs =>
        cases y with
        | sum ys =>
          cases z with
          | sum zs =>
            simp only [requal, Bool.and_eq_true, decide_eq_true_iff] at hxy hyz ⊢
            refine ⟨hxy.1.trans hyz.1, hincl xs ys zs (by simp at hx; omega) hxy.2 hyz.2⟩
          | zer | one | lit c | and l | prd l | kst r => simp [requal] at hyz
        | zer | one | lit c | and l | prd l | kst r => simp [requal] at hxy
      | and xs =>
        cases y with
        | and ys =>
          cases z with
          | and zs =>
            simp only [requal, Bool.and_eq_true, decide_eq_true_iff] at hxy hyz ⊢
            refine ⟨hxy.1.trans hyz.1, hincl xs ys zs (by simp at hx; omega) hxy.2 hyz.2⟩
          | zer | one | lit c | sum l | prd l | kst r => simp [requal] at hyz
        | zer | one | lit c | sum l | prd l | kst r => simp [requal] at hxy
      | prd xs =>
        cases y with
        | prd ys =>
          cases z with
          | prd zs =>
            have hlist : ∀ (as bs cs : List (Rex T)), sizeOf as ≤ n →
                List.Forall₂ (fun a b => requal a b = true) as bs →
                List.Forall₂ (fun a b => requal a b = true) bs cs →
                List.Forall₂ (fun a b => requal a b = true) as cs := by
              intro as
              induction as with
              | nil => intro bs cs _ h1 h2; cases h1; cases h2; exact .nil
              | cons a at2 iht =>
                intro bs cs has h1 h2
                cases h1 with
                | cons hab h1t =>
                  cases h2 with
                  | cons hbc h2t =>
                    refine .cons (ih a (by simp at has; omega) _ _ hab hbc) ?_
                    exact iht _ _ (by simp at has; omega) h1t h2t
            simp only [requal, Bool.and_eq_true, decide_eq_true_iff] at hxy hyz ⊢
            refine ⟨hxy.1.trans hyz.1, ?_⟩
            rw [reqList_iff] at hxy hyz ⊢
            exact hlist xs ys zs (by simp at hx; omega) hxy.2 hyz.2
          | zer | one | lit c | sum l | and l | kst r => simp [requal] at hyz
        | zer | one | lit c | sum l | and l | kst r => simp [requal] at hxy
      | kst r =>
        cases y with
        | kst ry =>
          cases z with
          | kst rz =>
            simp only [requal] at hxy hyz ⊢
            exact ih r (by simp at hx; omega) ry rz hxy hyz
          | zer | one | lit c | sum l | and l | prd l => simp [requal] at hyz
        | zer | one | lit c | sum l | and l | prd l => simp [requal] at hxy
  intro x y z
  exact key (sizeOf x) x le_rfl y z

theorem normList_iff {xs : List (Rex T)} :
    normList xs = true ↔ ∀ x ∈ xs, normB x = true := by
  induction xs with
  | nil => simp [normList]
  | cons x xs ih => simp [normList, Bool.and_eq_true, ih]

theorem nfList_iff {xs : List (Rex T)} :
    nfList xs = true ↔ ∀ x ∈ xs, nfB x = true := by
  induction xs with
  | nil => simp [nfList]
  | cons x xs ih => simp [nfList, Bool.and_eq_true, ih]

theorem normB_imp_nfB : ∀ (r : Rex T), normB r = true → nfB r = true := by
  have key : ∀ (n : ℕ) (r : Rex T), sizeOf r ≤ n → normB r = true →
      nfB r = true := by
    intro n
    induction n with
    | zero => intro r hr; exact absurd hr (by have := sizeOf_rex_pos r; omega)
    | succ n ih =>
      intro r hr h
      have hlist : ∀ (xs : List (Rex T)), sizeOf xs ≤ n + 1 →
          normList xs = true → nfList xs = true := by
        intro xs hxs hl
        rw [nfList_iff]
        intro x hx
        refine ih x ?_ (normList_iff.1 hl x hx)
        have := List.sizeOf_lt_of_mem hx
        omega
      cases r with
      | zer => simp [nfB]
      | one => simp [nfB]
      | lit c => simp [nfB]
      | sum xs =>
        simp only [normB, Bool.and_eq_true, decide_eq_true_iff] at h
        simp only [nfB, Bool.and_eq_true, decide_eq_true_iff]
        exact ⟨⟨⟨h.1.1.1, h.1.1.2⟩, h.1.2⟩, hlist xs (by simp at hr; omega) h.2⟩
      | and xs =>
        simp only [normB, Bool.and_eq_true, decide_eq_true_iff] at h
        simp only [nfB, Bool.and_eq_true, decide_eq_true_iff]
        refine ⟨⟨⟨h.1.1.1, ?_⟩, h.1.2⟩, hlist xs (by simp at hr; omega) h.2⟩
        have h2 := h.1.1.2
        simp only [noTypes, List.all_eq_true, decide_eq_true_iff] at h2 ⊢
        intro x hx
        have := h2 x hx
        simp only [List.mem_cons, List.not_mem_nil, or_false] at this ⊢
        push_neg at this
        simp [this.1]
      | prd xs =>
        simp only [normB, Bool.and_eq_true, decide_eq_true_iff] at h
        simp only [nfB, Bool.and_eq_true, decide_eq_true_iff]
        exact ⟨⟨h.1.1, h.1.2⟩, hlist xs (by simp at hr; omega) h.2⟩
      | kst r =>
        simp only [normB, Bool.and_eq_true, decide_eq_true_iff] at h
        simp only [nfB, Bool.and_eq_true, decide_eq_true_iff]
        exact ⟨h.1, ih r (by simp at hr; omega) h.2⟩
  intro r
  exact key (sizeOf r) r le_rfl

theorem nodupR_iff {xs : List (Rex T)} :
    nodupR xs = true ↔
      List.Pairwise (fun a b => requal a b = false) xs := by
  induction xs with
  | nil => simp [nodupR]
  | cons x xs ih =>
    simp only [nodupR, Bool.and_eq_true, Bool.not_eq_true', List.pairwise_cons, ih]
    constructor
    · rintro ⟨h1, h2⟩
      refine ⟨fun y hy => ?_, h2⟩
      by_contra hq
      exact absurd (rmem_iff.2 ⟨y, hy, by simpa using hq⟩) (by simp [h1])
    · rintro ⟨h1, h2⟩
      refine ⟨?_, h2⟩
      by_contra hq
      obtain ⟨y, hy, hxy⟩ := rmem_iff.1 (by simpa using hq)
      exact absurd hxy (by simp [h1 y hy])

theorem rmem_append {x : Rex T} {l₁ l₂ : List (Rex T)} :
    rmem x (l₁ ++ l₂) = (rmem x l₁ || rmem x l₂) := by
  induction l₁ with
  | nil => simp [rmem]
  | cons y ys ih => simp [rmem, ih, Bool.or_assoc]

/-- Pigeonhole: a duplicate-free set included (modulo `requal`) in
another set is no larger, provided `requal` is symmetric on the
elements involved. -/
theorem rincl_length_le :
    ∀ (xs ys : List (Rex T)),
      nodupR xs = true →
      (∀ x ∈ xs, ∀ y ∈ ys, requal x y = true → requal y x = true) →
      (∀ x ∈ xs, rmem x ys = true) →
      xs.length ≤ ys.length := by
  intro xs
  induction xs with
  | nil => intro ys _ _ _; simp
  | cons x xs ih =>
    intro ys hnd hsym hincl
    obtain ⟨b, hb, hxb⟩ := rmem_iff.1 (hincl x (by simp))
    obtain ⟨ys₁, ys₂, rfl⟩ := List.append_of_mem hb
    simp only [nodupR, Bool.and_eq_true, Bool.not_eq_true'] at hnd
    have hstep : ∀ x' ∈ xs, rmem x' (ys₁ ++ ys₂) = true := by
      intro x' hx'
      obtain ⟨y, hy, hxy⟩ := rmem_iff.1 (hincl x' (by simp [hx']))
      rcases List.mem_append.1 hy with hy1 | hy2
      · exact rmem_iff.2 ⟨y, List.mem_append.2 (Or.inl hy1), hxy⟩
      · rcases List.mem_cons.1 hy2 with rfl | hy3
        · exfalso
          have hbx : requal y x' = true :=
            hsym x' (by simp [hx']) y hy hxy
          have hxx : requal x x' = true := requal_trans x y x' hxb hbx
          have : rmem x xs = true := rmem_iff.2 ⟨x', hx', hxx⟩
          simp [this] at hnd
        · exact rmem_iff.2 ⟨y, List.mem_append.2 (Or.inr hy3), hxy⟩
    have hlen : xs.length ≤ (ys₁ ++ ys₂).length := by
      refine ih (ys₁ ++ ys₂) hnd.2 ?_ hstep
      intro a ha y hy
      refine hsym a (by simp [ha]) y ?_
      rcases List.mem_append.1 hy with h | h
      · exact List.mem_append.2 (Or.inl h)
      · exact List.mem_append.2 (Or.inr (List.mem_cons.2 (Or.inr h)))
    simp only [List.length_append, List.length_cons] at hlen ⊢
    omega

/-- If a duplicate-free set is included in a set that is not larger,
the inclusion is mutual. -/
theorem rincl_exchange :
    ∀ (xs ys : List (Rex T)),
      nodupR xs = true →
      (∀ x ∈ xs, ∀ y ∈ ys, requal x y = true → requal y x = true) →
      (∀ x ∈ xs, rmem x ys = true) →
      ys.length ≤ xs.length →
      ∀ b ∈ ys, rmem b xs = true := by
  intro xs ys hnd hsym hincl hlen b hb
  by_contra hq
  have hnb : ∀ x ∈ xs, requal b x = false := by
    intro x hx
    by_contra hbx
    exact hq (rmem_iff.2 ⟨x, hx, by simpa using hbx⟩)
  obtain ⟨ys₁, ys₂, rfl⟩ := List.append_of_mem hb
  have hstep : ∀ x ∈ xs, rmem x (ys₁ ++ ys₂) = true := by
    intro x hx
    obtain ⟨y, hy, hxy⟩ := rmem_iff.1 (hincl x hx)
    rcases List.mem_append.1 hy with hy1 | hy2
    · exact rmem_iff.2 ⟨y, List.mem_append.2 (Or.inl hy1), hxy⟩
    · rcases List.mem_cons.1 hy2 with rfl | hy3
      · exfalso
        have : requal y x = true := hsym x hx y hy hxy
        simp [hnb x hx] at this
      · exact rmem_iff.2 ⟨y, List.mem_append.2 (Or.inr hy3), hxy⟩
  have := rincl_length_le xs (ys₁ ++ ys₂) hnd
    (by
      intro a ha y hy
      refine hsym a ha y ?_
      rcases List.mem_append.1 hy with h | h
      · exact List.mem_append.2 (Or.inl h)
      · exact List.mem_append.2 (Or.inr (List.mem_cons.2 (Or.inr h))))
    hstep
  simp only [List.length_append, List.length_cons] at this hlen
  omega

theorem requal_symm :
    ∀ (x y : Rex T), nfB x = true → nfB y = true →
      requal x y = true → requal y x = true := by
  have key : ∀ (n : ℕ) (x : Rex T), sizeOf x ≤ n → ∀ (y : Rex T),
      nfB x = true → nfB y = true →
      requal x y = true → requal y x = true := by
    intro n
    induction n with
    | zero => intro x hx; exact absurd hx (by have := sizeOf_rex_pos x; omega)
    | succ n ih =>
      intro x hx y hnx hny hxy
      have hset : ∀ (xs ys : List (Rex T)), sizeOf xs ≤ n + 1 →
          nodupR xs = true → nfList xs = true → nfList ys = true →
          xs.length = ys.length → rincl xs ys = true →
          xs.length = ys.length → rincl ys xs = true := by
        intro xs ys hxs hnd hlx hly hlen h1 _
        have hsym : ∀ a ∈ xs, ∀ b ∈ ys, requal a b = true → requal b a = true := by
          intro a ha b hb hab
          refine ih a ?_ b (nfList_iff.1 hlx a ha) (nfList_iff.1 hly b hb) hab
          have := List.sizeOf_lt_of_mem ha
          omega
        have := rincl_exchange xs ys hnd hsym (rincl_iff.1 h1) (by omega)
        exact rincl_iff.2 this
      cases x with
      | zer => cases y <;> simp_all [requal]
      | one => cases y <;> simp_all [requal]
      | lit a =>
        cases y <;> simp_all [requal]
      | sum xs =>
        cases y with
        | sum ys =>
          simp only [requal, Bool.and_eq_true, decide_eq_true_iff] at hxy ⊢
          simp only [nfB, Bool.and_eq_true, decide_eq_true_iff] at hnx hny
          exact ⟨hxy.1.symm,
            hset xs ys (by simp at hx; omega) hnx.1.2 hnx.2 hny.2 hxy.1 hxy.2 hxy.1⟩
        | zer | one | lit c | and l | prd l | kst r => simp [requal] at hxy
      | and xs =>
        cases y with
        | and ys =>
          simp only [requal, Bool.and_eq_true, decide_eq_true_iff] at hxy ⊢
          simp only [nfB, Bool.and_eq_true, decide_eq_true_iff] at hnx hny
          exact ⟨hxy.1.symm,
            hset xs ys (by simp at hx; omega) hnx.1.2 hnx.2 hny.2 hxy.1 hxy.2 hxy.1⟩
        | zer | one | lit c | sum l | prd l | kst r => simp [requal] at hxy
      | prd xs =>
        cases y with
        | prd ys =>
          simp only [requal, Bool.and_eq_true, decide_eq_true_iff] at hxy ⊢
          simp only [nfB, Bool.and_eq_true, decide_eq_true_iff] at hnx hny
          refine ⟨hxy.1.symm, ?_⟩
          rw [reqList_iff] at hxy ⊢
          have hlx := hnx.2
          have hly := hny.2
          obtain ⟨-, h2⟩ := hxy
          clear hnx hny
          induction h2 with
          | nil => exact .nil
          | @cons a b as bs hab h2t iht =>
            simp only [nfList, Bool.and_eq_true] at hlx hly
            refine .cons ?_ ?_
            · refine ih a ?_ b hlx.1 hly.1 hab
              simp at hx
              omega
            · exact iht (by simp at hx ⊢; omega) hlx.2 hly.2
        | zer | one | lit c | sum l | and l | kst r => simp [requal] at hxy
      | kst r =>
        cases y with
        | kst ry =>
          simp only [requal] at hxy ⊢
          simp only [nfB, Bool.and_eq_true, decide_eq_true_iff] at hnx hny
          exact ih r (by simp at hx; omega) ry hnx.2 hny.2 hxy
        | zer | one | lit c | sum l | and l | prd l => simp [requal] at hxy
  intro x y
  exact key (sizeOf x) x le_rfl y

theorem rmem_of_mem {z : Rex T} {l : List (Rex T)} (h : z ∈ l) :
    rmem z l = true :=
  rmem_iff.2 ⟨z, h, requal_refl z⟩

theorem rmem_sinsert {z x : Rex T} {s : List (Rex T)} :
    rmem z (sinsert s x) = true ↔ rmem z s = true ∨ requal z x = true := by
  unfold sinsert
  by_cases h : rmem x s = true
  · simp only [h, if_true]
    constructor
    · exact Or.inl
    · rintro (hz | hz)
      · exact hz
      · obtain ⟨u, hu, hxu⟩ := rmem_iff.1 h
        exact rmem_iff.2 ⟨u, hu, requal_trans z x u hz hxu⟩
  · rw [if_neg h, rmem_append]
    simp [rmem]

theorem mem_sinsert_sub {y x : Rex T} {s : List (Rex T)}
    (h : y ∈ sinsert s x) : y ∈ s ∨ y = x := by
  unfold sinsert at h
  by_cases hx : rmem x s = true <;> simp [hx] at h <;> tauto

theorem mem_sinsertAll_sub {y : Rex T} :
    ∀ {xs s : List (Rex T)}, y ∈ sinsertAll s xs → y ∈ s ∨ y ∈ xs := by
  intro xs
  induction xs with
  | nil => intro s h; exact Or.inl h
  | cons x xs ih =>
    intro s h
    rcases ih (s := sinsert s x) h with h1 | h1
    · rcases mem_sinsert_sub h1 with h2 | h2
      · exact Or.inl h2
      · exact Or.inr (by simp [h2])
    · exact Or.inr (by simp [h1])

theorem rmem_sinsertAll {z : Rex T} :
    ∀ {xs s : List (Rex T)},
      rmem z (sinsertAll s xs) = true ↔ rmem z s = true ∨ rmem z xs = true := by
  intro xs
  induction xs with
  | nil => intro s; simp [sinsertAll, rmem]
  | cons x xs ih =>
    intro s
    show rmem z (sinsertAll (sinsert s x) xs) = true ↔ _
    rw [ih, rmem_sinsert]
    simp [rmem, Bool.or_eq_true]
    tauto

theorem nodupR_sinsert {x : Rex T} {s : List (Rex T)}
    (hx : nfB x = true) (hs : ∀ y ∈ s, nfB y = true)
    (hnd : nodupR s = true) : nodupR (sinsert s x) = true := by
  unfold sinsert
  by_cases h : rmem x s = true
  · simp [h, hnd]
  · rw [if_neg h]
    rw [nodupR_iff] at hnd ⊢
    rw [List.pairwise_append]
    refine ⟨hnd, by simp, ?_⟩
    intro a ha b hb
    simp only [List.mem_singleton] at hb
    subst hb
    by_contra hq
    have hax : requal a b = true := by simpa using hq
    have : requal b a = true := requal_symm a b (hs a ha) hx hax
    exact h (rmem_iff.2 ⟨a, ha, this⟩)

theorem nodupR_sinsertAll :
    ∀ {xs s : List (Rex T)}, (∀ y ∈ xs, nfB y = true) →
      (∀ y ∈ s, nfB y = true) →
      nodupR s = true → nodupR (sinsertAll s xs) = true := by
  intro xs
  induction xs with
  | nil => intro s _ _ h; exact h
  | cons x xs ih =>
    intro s hxs hs hnd
    refine ih (fun y hy => hxs y (by simp [hy])) ?_ ?_
    · intro y hy
      rcases mem_sinsert_sub hy with h | h
      · exact hs y h
      · exact h ▸ hxs x (by simp)
    · exact nodupR_sinsert (hxs x (by simp)) hs hnd

theorem length_le_sinsert {x : Rex T} {s : List (Rex T)} :
    s.length ≤ (sinsert s x).length := by
  unfold sinsert
  by_cases h : rmem x s = true <;> simp [h]

theorem length_le_sinsertAll :
    ∀ {xs s : List (Rex T)}, s.length ≤ (sinsertAll s xs).length := by
  intro xs
  induction xs with
  | nil => intro s; exact le_rfl
  | cons x xs ih =>
    intro s
    exact le_trans length_le_sinsert (ih (s := sinsert s x))

theorem sinsertAll_of_nodup :
    ∀ {xs s : List (Rex T)}, (∀ y ∈ s ++ xs, nfB y = true) →
      nodupR (s ++ xs) = true → sinsertAll s xs = s ++ xs := by
  intro xs
  induction xs with
  | nil => intro s _ _; simp [sinsertAll]
  | cons x xs ih =>
    intro s hn hnd
    have hnox : rmem x s = false := by
      rw [nodupR_iff, List.pairwise_append] at hnd
      by_contra hq
      obtain ⟨u, hu, hxu⟩ := rmem_iff.1 (by simpa using hq)
      have hux : requal u x = false := hnd.2.2 u hu x (by simp)
      have : requal u x = true :=
        requal_symm x u (hn x (by simp)) (hn u (by simp [hu])) hxu
      simp [hux] at this
    have hs : sinsert s x = s ++ [x] := by simp [sinsert, hnox]
    show sinsertAll (sinsert s x) xs = _
    rw [hs, ih (s := s ++ [x]) (by simpa using hn) (by simpa using hnd)]
    simp

theorem sinsertAll_nil {xs : List (Rex T)}
    (hn : ∀ y ∈ xs, nfB y = true) (hnd : nodupR xs = true) :
    sinsertAll [] xs = xs := by
  simpa using sinsertAll_of_nodup (s := []) (by simpa using hn) (by simpa using hnd)

theorem nfB_sum_fields {xs : List (Rex T)} (h : nfB (Rex.sum xs) = true) :
    2 ≤ xs.length ∧ (∀ x ∈ xs, rtype x ≠ 1 ∧ rtype x ≠ 4) ∧
      nodupR xs = true ∧ (∀ x ∈ xs, nfB x = true) := by
  simp only [nfB, Bool.and_eq_true, decide_eq_true_iff] at h
  obtain ⟨⟨⟨h1, h2⟩, h3⟩, h4⟩ := h
  refine ⟨h1, ?_, h3, nfList_iff.1 h4⟩
  intro x hx
  simp only [noTypes, List.all_eq_true, decide_eq_true_iff] at h2
  have h2x := h2 x hx
  simp only [List.mem_cons, List.mem_singleton] at h2x
  push_neg at h2x
  simpa using h2x

theorem melems_facts {r : Rex T} (h : nfB r = true) :
    (∀ x ∈ melems r, nfB x = true ∧ rtype x ≠ 1 ∧ rtype x ≠ 4) ∧
      nodupR (melems r) = true := by
  cases r with
  | zer => simp [melems, nodupR]
  | sum xs =>
    obtain ⟨h1, h2, h3, h4⟩ := nfB_sum_fields h
    exact ⟨fun x hx => ⟨h4 x hx, h2 x hx⟩, h3⟩
  | one => simp [melems, nodupR, rmem, rtype, nfB]
  | lit c => simpa [melems, nodupR, rmem, rtype] using h
  | and xs => simpa [melems, nodupR, rmem, rtype] using h
  | prd xs => simpa [melems, nodupR, rmem, rtype] using h
  | kst x => simpa [melems, nodupR, rmem, rtype] using h

theorem mkSumOfSet_melems {r : Rex T} (h : nfB r = true) :
    mkSumOfSet (melems r) = r := by
  cases r with
  | zer => rfl
  | sum xs =>
    obtain ⟨h1, -, -, -⟩ := nfB_sum_fields h
    show mkSumOfSet xs = _
    match xs, h1 with
    | a :: b :: t, _ => rfl
  | one => rfl
  | lit c => rfl
  | and xs => rfl
  | prd xs => rfl
  | kst x => rfl

theorem nfB_mkSumOfSet {U : List (Rex T)}
    (h : ∀ x ∈ U, nfB x = true ∧ rtype x ≠ 1 ∧ rtype x ≠ 4)
    (hnd : nodupR U = true) : nfB (mkSumOfSet U) = true := by
  match U with
  | [] => rfl
  | [x] => exact (h x (by simp)).1
  | a :: b :: t =>
    show nfB (Rex.sum (a :: b :: t)) = true
    simp only [nfB, Bool.and_eq_true, decide_eq_true_iff]
    refine ⟨⟨⟨by simp, ?_⟩, hnd⟩, ?_⟩
    · simp only [noTypes, List.all_eq_true, decide_eq_true_iff]
      intro x hx
      have := (h x hx).2
      simp only [List.mem_cons, List.mem_singleton]
      push_neg
      simpa using this
    · exact nfList_iff.2 fun x hx => (h x hx).1

/-- Two duplicate-free sets of normalised summands with the same
members modulo `requal` give structurally equal sums. -/
theorem requal_mkSumOfSet {U V : List (Rex T)}
    (hU : ∀ x ∈ U, nfB x = true) (hV : ∀ x ∈ V, nfB x = true)
    (hnU : nodupR U = true) (hnV : nodupR V = true)
    (h1 : ∀ z ∈ U, rmem z V = true) (h2 : ∀ z ∈ V, rmem z U = true) :
    requal (mkSumOfSet U) (mkSumOfSet V) = true := by
  have hsym1 : ∀ x ∈ U, ∀ y ∈ V, requal x y = true → requal y x = true :=
    fun x hx y hy => requal_symm x y (hU x hx) (hV y hy)
  have hsym2 : ∀ x ∈ V, ∀ y ∈ U, requal x y = true → requal y x = true :=
    fun x hx y hy => requal_symm x y (hV x hx) (hU y hy)
  have hlen : U.length = V.length :=
    le_antisymm (rincl_length_le U V hnU hsym1 h1)
      (rincl_length_le V U hnV hsym2 h2)
  match U, V, hlen with
  | [], [], _ => simp [mkSumOfSet, requal]
  | [u], [v], _ =>
    show requal u v = true
    simpa [rmem] using h1 u (by simp)
  | a :: b :: t, c :: d :: s, hlen =>
    show requal (Rex.sum (a :: b :: t)) (Rex.sum (c :: d :: s)) = true
    simp only [requal, Bool.and_eq_true, decide_eq_true_iff]
    exact ⟨hlen, rincl_iff.2 fun x hx => h1 x hx⟩
  | [], _ :: _, hlen => simp at hlen
  | _ :: _, [], hlen => simp at hlen
  | [_], _ :: _ :: _, hlen => simp at hlen
  | _ :: _ :: _, [_], hlen => simp at hlen

omit [DecidableEq T] in

theorem rtype_eq_one_iff {a : Rex T} : rtype a = 1 ↔ a = .zer := by
  cases a <;> simp [rtype]

omit [DecidableEq T] in

theorem mkSumOfSet_of_len2 {W : List (Rex T)} (h : 2 ≤ W.length) :
    mkSumOfSet W = .sum W := by
  match W, h with
  | a :: b :: t, _ => rfl

theorem nfB_sum_sinsertAll {X Y : List (Rex T)}
    (hX : ∀ x ∈ X, nfB x = true ∧ rtype x ≠ 1 ∧ rtype x ≠ 4)
    (hY : ∀ x ∈ Y, nfB x = true ∧ rtype x ≠ 1 ∧ rtype x ≠ 4)
    (hndX : nodupR X = true) (hlen : 2 ≤ X.length) :
    nfB (Rex.sum (sinsertAll X Y)) = true := by
  have hmem : ∀ x ∈ sinsertAll X Y, nfB x = true ∧ rtype x ≠ 1 ∧ rtype x ≠ 4 := by
    intro x hx
    rcases mem_sinsertAll_sub hx with h | h
    · exact hX x h
    · exact hY x h
  have hnd : nodupR (sinsertAll X Y) = true :=
    nodupR_sinsertAll (fun y hy => (hY y hy).1) (fun y hy => (hX y hy).1) hndX
  have hl : 2 ≤ (sinsertAll X Y).length :=
    le_trans hlen length_le_sinsertAll
  rw [← mkSumOfSet_of_len2 hl]
  exact nfB_mkSumOfSet hmem hnd

theorem sinsertAll_singleton {s : List (Rex T)} {x : Rex T} :
    sinsertAll s [x] = sinsert s x := rfl

theorem nfB_sum_pair {a b : Rex T} (ha : nfB a = true) (hb : nfB b = true)
    (hta : rtype a ≠ 1 ∧ rtype a ≠ 4) (htb : rtype b ≠ 1 ∧ rtype b ≠ 4)
    (hab : requal a b = false) : nfB (Rex.sum [a, b]) = true := by
  simp only [nfB, Bool.and_eq_true, decide_eq_true_iff]
  refine ⟨⟨⟨by simp, ?_⟩, ?_⟩, ?_⟩
  · simp only [noTypes, List.all_eq_true, decide_eq_true_iff]
    intro x hx
    simp only [List.mem_cons, List.not_mem_nil, or_false] at hx
    rcases hx with rfl | rfl
    · simp only [List.mem_cons, List.not_mem_nil]
      push_neg
      exact ⟨hta.1, hta.2, by simp⟩
    · simp only [List.mem_cons, List.not_mem_nil]
      push_neg
      exact ⟨htb.1, htb.2, by simp⟩
  · simp [nodupR, rmem, hab]
  · simp [nfList, ha, hb]

/-- `Sum::make` preserves the smart-constructor invariants. -/
theorem nfB_sumMake {a b : Rex T} (ha : nfB a = true) (hb : nfB b = true) :
    nfB (sumMake a b) = true := by
  by_cases h1 : rtype a = 1
  · simpa [sumMake, h1] using hb
  by_cases h2 : rtype b = 1
  · simpa [sumMake, h1, h2] using hb ▸ ha
  by_cases h3 : requal a b = true
  · simpa [sumMake, h1, h2, h3] using ha
  unfold sumMake
  rw [if_neg h1, if_neg h2, if_neg h3]
  cases a with
  | zer => exact absurd rfl h1
  | sum xs =>
    obtain ⟨hx1, hx2, hx3, hx4⟩ := nfB_sum_fields ha
    have hXf : ∀ x ∈ xs, nfB x = true ∧ rtype x ≠ 1 ∧ rtype x ≠ 4 :=
      fun x hx => ⟨hx4 x hx, hx2 x hx⟩
    have hnil : sinsertAll ([] : List (Rex T)) xs = xs :=
      sinsertAll_nil (fun y hy => (hXf y hy).1) hx3
    cases b with
    | zer => exact absurd rfl h2
    | sum ys =>
      obtain ⟨hy1, hy2, hy3, hy4⟩ := nfB_sum_fields hb
      show nfB (Rex.sum (sinsertAll (sinsertAll [] xs) ys)) = true
      rw [hnil]
      exact nfB_sum_sinsertAll hXf (fun y hy => ⟨hy4 y hy, hy2 y hy⟩) hx3 hx1
    | one | lit c | and l | prd l | kst r =>
      show nfB (Rex.sum (sinsert (sinsertAll [] xs) _)) = true
      rw [hnil, ← sinsertAll_singleton]
      refine nfB_sum_sinsertAll hXf ?_ hx3 hx1
      intro x hx
      simp only [List.mem_singleton] at hx
      subst hx
      exact ⟨hb, by simpa [rtype] using h2, by simp [rtype]⟩
  | one | lit c0 | and l0 | prd l0 | kst r0 =>
    cases b with
    | zer => exact absurd rfl h2
    | sum ys =>
      obtain ⟨hy1, hy2, hy3, hy4⟩ := nfB_sum_fields hb
      have hYf : ∀ x ∈ ys, nfB x = true ∧ rtype x ≠ 1 ∧ rtype x ≠ 4 :=
        fun x hx => ⟨hy4 x hx, hy2 x hx⟩
      show nfB (Rex.sum (sinsert (sinsertAll [] ys) _)) = true
      rw [show sinsertAll ([] : List (Rex T)) ys = ys from
        sinsertAll_nil (fun y hy => (hYf y hy).1) hy3, ← sinsertAll_singleton]
      refine nfB_sum_sinsertAll hYf ?_ hy3 hy1
      intro x hx
      simp only [List.mem_singleton] at hx
      subst hx
      exact ⟨ha, by simpa [rtype] using h1, by simp [rtype]⟩
    | one | lit c | and l | prd l | kst r =>
      refine nfB_sum_pair ha hb ⟨by simpa [rtype] using h1, by simp [rtype]⟩
        ⟨by simpa [rtype] using h2, by simp [rtype]⟩ (by simpa using h3)

omit [DecidableEq T] in

theorem rtype_eq_four_iff {x : Rex T} : rtype x = 4 ↔ ∃ xs, x = .sum xs := by
  cases x <;> simp [rtype]

omit [DecidableEq T] in

theorem melems_of_not_sum_zer {x : Rex T} (h0 : rtype x ≠ 1) (h4 : rtype x ≠ 4) :
    melems x = [x] := by
  cases x <;> simp_all [rtype, melems]

theorem requal_rtype {x y : Rex T} (h : requal x y = true) : rtype x = rtype y := by
  cases x <;> cases y <;> simp_all [requal, rtype]

/-- Transport of `rmem` over the summand sets of two `requal` regexes. -/
theorem rmem_melems_of_requal {b a z : Rex T} (hba : requal b a = true)
    (h : rmem z (melems b) = true) : rmem z (melems a) = true := by
  have hty := requal_rtype hba
  by_cases h4 : rtype b = 4
  · obtain ⟨B, rfl⟩ := rtype_eq_four_iff.1 h4
    obtain ⟨A, rfl⟩ := rtype_eq_four_iff.1 (hty ▸ h4)
    simp only [requal, Bool.and_eq_true] at hba
    have hincl := rincl_iff.1 hba.2
    obtain ⟨y, hy, hzy⟩ := rmem_iff.1 h
    obtain ⟨u, hu, hyu⟩ := rmem_iff.1 (hincl y hy)
    exact rmem_iff.2 ⟨u, hu, requal_trans z y u hzy hyu⟩
  · by_cases h0 : rtype b = 1
    · obtain rfl := rtype_eq_one_iff.1 h0
      simp [melems, rmem] at h
    · rw [melems_of_not_sum_zer h0 h4] at h
      rw [melems_of_not_sum_zer (hty ▸ h0) (hty ▸ h4)]
      simp only [rmem, Bool.or_eq_true] at h ⊢
      rcases h with h | h
      · exact Or.inl (requal_trans z b a h hba)
      · simp [rmem] at h

/-- The summand set of `Sum::make a b` is the union of the summand
sets of `a` and `b`, modulo `requal`. -/
theorem rmem_melems_sumMake {a b : Rex T} (ha : nfB a = true)
    (hb : nfB b = true) (z : Rex T) :
    rmem z (melems (sumMake a b)) = true ↔
      rmem z (melems a) = true ∨ rmem z (melems b) = true := by
  by_cases h1 : rtype a = 1
  · obtain rfl := rtype_eq_one_iff.1 h1
    simp [sumMake, melems, rmem, rtype]
  by_cases h2 : rtype b = 1
  · obtain rfl := rtype_eq_one_iff.1 h2
    have hred : sumMake a .zer = a := by
      unfold sumMake
      rw [if_neg h1, if_pos (by simp [rtype])]
    rw [hred]
    simp [melems, rmem]
  by_cases h3 : requal a b = true
  · have hred : sumMake a b = a := by
      unfold sumMake
      rw [if_neg h1, if_neg h2, if_pos h3]
    rw [hred]
    constructor
    · exact Or.inl
    · rintro (h | h)
      · exact h
      · exact rmem_melems_of_requal (requal_symm a b ha hb h3) h
  unfold sumMake
  rw [if_neg h1, if_neg h2, if_neg h3]
  cases a with
  | zer => exact absurd rfl h1
  | sum xs =>
    cases b with
    | zer => exact absurd rfl h2
    | sum ys =>
      show rmem z (melems (Rex.sum (sinsertAll (sinsertAll [] xs) ys))) = true ↔ _
      simp only [melems]
      rw [rmem_sinsertAll, rmem_sinsertAll]
      simp [rmem]
    | one | lit c | and l | prd l | kst r =>
      show rmem z (melems (Rex.sum (sinsert (sinsertAll [] xs) _))) = true ↔ _
      simp only [melems]
      rw [rmem_sinsert, rmem_sinsertAll]
      simp [rmem]
  | one | lit c0 | and l0 | prd l0 | kst r0 =>
    cases b with
    | zer => exact absurd rfl h2
    | sum ys =>
      show rmem z (melems (Rex.sum (sinsert (sinsertAll [] ys) _))) = true ↔ _
      simp only [melems]
      rw [rmem_sinsert, rmem_sinsertAll]
      simp [rmem]
      tauto
    | one | lit c | and l | prd l | kst r =>
      show rmem z (melems (Rex.sum [_, _])) = true ↔ _
      simp [melems, rmem]

/-- Two normalised regexes whose summand sets agree modulo `requal`
are structurally equal. -/
theorem requal_of_melems_iff {x y : Rex T} (hx : nfB x = true)
    (hy : nfB y = true)
    (hiff : ∀ z, rmem z (melems x) = true ↔ rmem z (melems y) = true) :
    requal x y = true := by
  have fx := melems_facts hx
  have fy := melems_facts hy
  have h := @requal_mkSumOfSet T _ (melems x) (melems y)
    (fun u hu => (fx.1 u hu).1) (fun u hu => (fy.1 u hu).1) fx.2 fy.2
    (fun u hu => (hiff u).1 (rmem_of_mem hu))
    (fun u hu => (hiff u).2 (rmem_of_mem hu))
  rwa [mkSumOfSet_melems hx, mkSumOfSet_melems hy] at h

/-- C9: for all normalised regexes `a`, `b`, `c`, the smart constructor
`Sum::make` is associative and order-insensitive under the structural
equality `equal`:
`Sum.make(Sum.make(a,b),c) == Sum.make(a,Sum.make(b,c)) ==
Sum.make(c,Sum.make(a,b))`. -/
theorem c9_sumMake_assoc_orderless (a b c : Rex T)
    (ha : normB a = true) (hb : normB b = true) (hc : normB c = true) :
    requal (sumMake (sumMake a b) c) (sumMake a (sumMake b c)) = true ∧
      requal (sumMake (sumMake a b) c) (sumMake c (sumMake a b)) = true ∧
      requal (sumMake a (sumMake b c)) (sumMake c (sumMake a b)) = true := by
  have ha2 := normB_imp_nfB a ha
  have hb2 := normB_imp_nfB b hb
  have hc2 := normB_imp_nfB c hc
  have nab := nfB_sumMake ha2 hb2
  have nbc := nfB_sumMake hb2 hc2
  have n1 := nfB_sumMake nab hc2
  have n2 := nfB_sumMake ha2 nbc
  have n3 := nfB_sumMake hc2 nab
  have k1 : ∀ z, rmem z (melems (sumMake (sumMake a b) c)) = true ↔
      (rmem z (melems a) = true ∨ rmem z (melems b) = true) ∨
        rmem z (melems c) = true := by
    intro z
    rw [rmem_melems_sumMake nab hc2 z, rmem_melems_sumMake ha2 hb2 z]
  have k2 : ∀ z, rmem z (melems (sumMake a (sumMake b c))) = true ↔
      rmem z (melems a) = true ∨
        (rmem z (melems b) = true ∨ rmem z (melems c) = true) := by
    intro z
    rw [rmem_melems_sumMake ha2 nbc z, rmem_melems_sumMake hb2 hc2 z]
  have k3 : ∀ z, rmem z (melems (sumMake c (sumMake a b))) = true ↔
      rmem z (melems c) = true ∨
        (rmem z (melems a) = true ∨ rmem z (melems b) = true) := by
    intro z
    rw [rmem_melems_sumMake hc2 nab z, rmem_melems_sumMake ha2 hb2 z]
  refine ⟨?_, ?_, ?_⟩
  · refine requal_of_melems_iff n1 n2 fun z => ?_
    rw [k1 z, k2 z]
    tauto
  · refine requal_of_melems_iff n1 n3 fun z => ?_
    rw [k1 z, k3 z]
    tauto
  · refine requal_of_melems_iff n2 n3 fun z => ?_
    rw [k2 z, k3 z]
    tauto
/-! ### The invariant `nfB` is preserved by the derivative, and
`requal` is a congruence for `nullable` and the derivative on it -/

theorem anyNullable_iff {xs : List (Rex T)} :
    anyNullable xs = true ↔ ∃ x ∈ xs, nullableB x = true := by
  induction xs with
  | nil => simp [anyNullable]
  | cons x xs ih => simp [anyNullable, Bool.or_eq_true, ih]

theorem allNullable_iff {xs : List (Rex T)} :
    allNullable xs = true ↔ ∀ x ∈ xs, nullableB x = true := by
  induction xs with
  | nil => simp [allNullable]
  | cons x xs ih => simp [allNullable, Bool.and_eq_true, ih]

theorem reqList_length {as bs : List (Rex T)} (h : reqList as bs = true) :
    as.length = bs.length := (reqList_iff.1 h).length_eq

theorem reqList_append {as bs cs ds : List (Rex T)}
    (h1 : reqList as cs = true) (h2 : reqList bs ds = true) :
    reqList (as ++ bs) (cs ++ ds) = true := by
  rw [reqList_iff] at h1 h2 ⊢
  induction h1 with
  | nil => exact h2
  | cons hab h1t iht => exact .cons hab iht

theorem nfB_and_fields {xs : List (Rex T)} (h : nfB (Rex.and xs) = true) :
    2 ≤ xs.length ∧ (∀ x ∈ xs, rtype x ≠ 1) ∧
      nodupR xs = true ∧ (∀ x ∈ xs, nfB x = true) := by
  simp only [nfB, Bool.and_eq_true, decide_eq_true_iff] at h
  obtain ⟨⟨⟨h1, h2⟩, h3⟩, h4⟩ := h
  refine ⟨h1, ?_, h3, nfList_iff.1 h4⟩
  intro x hx
  simp only [noTypes, List.all_eq_true, decide_eq_true_iff] at h2
  have := h2 x hx
  simpa using this

theorem nfB_prd_fields {xs : List (Rex T)} (h : nfB (Rex.prd xs) = true) :
    2 ≤ xs.length ∧ (∀ x ∈ xs, rtype x ≠ 1 ∧ rtype x ≠ 2 ∧ rtype x ≠ 6) ∧
      (∀ x ∈ xs, nfB x = true) := by
  simp only [nfB, Bool.and_eq_true, decide_eq_true_iff] at h
  obtain ⟨⟨h1, h2⟩, h4⟩ := h
  refine ⟨h1, ?_, nfList_iff.1 h4⟩
  intro x hx
  simp only [noTypes, List.all_eq_true, decide_eq_true_iff] at h2
  have h2x := h2 x hx
  simp only [List.mem_cons, List.not_mem_nil, or_false] at h2x
  push_neg at h2x
  exact h2x

theorem nfB_kst_fields {r : Rex T} (h : nfB (Rex.kst r) = true) :
    (rtype r ≠ 1 ∧ rtype r ≠ 2 ∧ rtype r ≠ 7) ∧ nfB r = true := by
  simpa only [nfB, Bool.and_eq_true, decide_eq_true_iff] using h

theorem nfB_prd_of_parts {l : List (Rex T)} (h2 : 2 ≤ l.length)
    (ht : ∀ x ∈ l, rtype x ≠ 1 ∧ rtype x ≠ 2 ∧ rtype x ≠ 6)
    (hn : ∀ x ∈ l, nfB x = true) : nfB (Rex.prd l) = true := by
  simp only [nfB, Bool.and_eq_true, decide_eq_true_iff]
  refine ⟨⟨h2, ?_⟩, nfList_iff.2 hn⟩
  simp only [noTypes, List.all_eq_true, decide_eq_true_iff]
  intro x hx
  simp only [List.mem_cons, List.not_mem_nil, or_false]
  push_neg
  exact ht x hx

theorem nfB_kstMake {r : Rex T} (h : nfB r = true) :
    nfB (kstMake r) = true := by
  unfold kstMake
  by_cases h1 : rtype r = 2 ∨ rtype r = 1
  · rw [if_pos h1]; simp [nfB]
  · rw [if_neg h1]
    by_cases h2 : rtype r = 7
    · rw [if_pos h2]; exact h
    · rw [if_neg h2]
      simp only [nfB, Bool.and_eq_true, decide_eq_true_iff]
      push_neg at h1
      exact ⟨⟨h1.2, h1.1, h2⟩, h⟩

theorem nfB_prdMake {r s : Rex T} (hr : nfB r = true) (hs : nfB s = true) :
    nfB (prdMake r s) = true := by
  unfold prdMake
  by_cases h1 : rtype r = 1 ∨ rtype s = 2
  · rw [if_pos h1]; exact hr
  rw [if_neg h1]
  by_cases h2 : rtype s = 1 ∨ rtype r = 2
  · rw [if_pos h2]; exact hs
  rw [if_neg h2]
  push_neg at h1 h2
  obtain ⟨hr1, hs2⟩ := h1
  obtain ⟨hs1, hr2⟩ := h2
  cases r with
  | zer => exact absurd rfl hr1
  | one => exact absurd rfl hr2
  | kst ri =>
    cases s with
    | zer => exact absurd rfl hs1
    | one => exact absurd rfl hs2
    | kst si =>
      show nfB (if requal ri si then Rex.kst ri else
          Rex.prd [Rex.kst ri, Rex.kst si]) = true
      by_cases hq : requal ri si = true
      · rw [if_pos hq]; exact hr
      · rw [if_neg hq]
        exact nfB_prd_of_parts (by simp)
          (by intro x hx
              rcases List.mem_cons.1 hx with rfl | hx
              · simp [rtype]
              · simp only [List.mem_singleton] at hx
                subst hx
                simp [rtype])
          (by intro x hx
              rcases List.mem_cons.1 hx with rfl | hx
              · exact hr
              · simp only [List.mem_singleton] at hx
                subst hx
                exact hs)
    | prd ss =>
      obtain ⟨hl, ht, hn⟩ := nfB_prd_fields hs
      refine nfB_prd_of_parts (by simp; omega) ?_ ?_
      · intro x hx
        rcases List.mem_cons.1 hx with rfl | hx
        · simp [rtype]
        · exact ht x hx
      · intro x hx
        rcases List.mem_cons.1 hx with rfl | hx
        · exact hr
        · exact hn x hx
    | lit c =>
      exact nfB_prd_of_parts (by simp)
        (by intro x hx
            rcases List.mem_cons.1 hx with rfl | hx
            · simp [rtype]
            · simp only [List.mem_singleton] at hx; subst hx; simp [rtype])
        (by intro x hx
            rcases List.mem_cons.1 hx with rfl | hx
            · exact hr
            · simp only [List.mem_singleton] at hx; subst hx; exact hs)
    | sum l =>
      exact nfB_prd_of_parts (by simp)
        (by intro x hx
            rcases List.mem_cons.1 hx with rfl | hx
            · simp [rtype]
            · simp only [List.mem_singleton] at hx; subst hx; simp [rtype])
        (by intro x hx
            rcases List.mem_cons.1 hx with rfl | hx
            · exact hr
            · simp only [List.mem_singleton] at hx; subst hx; exact hs)
    | and l =>
      exact nfB_prd_of_parts (by simp)
        (by intro x hx
            rcases List.mem_cons.1 hx with rfl | hx
            · simp [rtype]
            · simp only [List.mem_singleton] at hx; subst hx; simp [rtype])
        (by intro x hx
            rcases List.mem_cons.1 hx with rfl | hx
            · exact hr
            · simp only [List.mem_singleton] at hx; subst hx; exact hs)
  | lit c0 =>
    cases s with
    | zer => exact absurd rfl hs1
    | one => exact absurd rfl hs2
    | prd ss =>
      obtain ⟨hl, ht, hn⟩ := nfB_prd_fields hs
      refine nfB_prd_of_parts (by simp; omega) ?_ ?_
      · intro x hx
        rcases List.mem_cons.1 hx with rfl | hx
        · simp [rtype]
        · exact ht x hx
      · intro x hx
        rcases List.mem_cons.1 hx with rfl | hx
        · exact hr
        · exact hn x hx
    | lit c | sum l | and l | kst rr =>
      refine nfB_prd_of_parts (by simp) ?_ ?_
      · intro x hx
        rcases List.mem_cons.1 hx with rfl | hx
        · simp [rtype]
        · simp only [List.mem_singleton] at hx; subst hx
          refine ⟨hs1, hs2, by simp [rtype]⟩
      · intro x hx
        rcases List.mem_cons.1 hx with rfl | hx
        · exact hr
        · simp only [List.mem_singleton] at hx; subst hx; exact hs
  | sum l0 =>
    cases s with
    | zer => exact absurd rfl hs1
    | one => exact absurd rfl hs2
    | prd ss =>
      obtain ⟨hl, ht, hn⟩ := nfB_prd_fields hs
      refine nfB_prd_of_parts (by simp; omega) ?_ ?_
      · intro x hx
        rcases List.mem_cons.1 hx with rfl | hx
        · simp [rtype]
        · exact ht x hx
      · intro x hx
        rcases List.mem_cons.1 hx with rfl | hx
        · exact hr
        · exact hn x hx
    | lit c | sum l | and l | kst rr =>
      refine nfB_prd_of_parts (by simp) ?_ ?_
      · intro x hx
        rcases List.mem_cons.1 hx with rfl | hx
        · simp [rtype]
        · simp only [List.mem_singleton] at hx; subst hx
          refine ⟨hs1, hs2, by simp [rtype]⟩
      · intro x hx
        rcases List.mem_cons.1 hx with rfl | hx
        · exact hr
        · simp only [List.mem_singleton] at hx; subst hx; exact hs
  | and l0 =>
    cases s with
    | zer => exact absurd rfl hs1
    | one => exact absurd rfl hs2
    | prd ss =>
      obtain ⟨hl, ht, hn⟩ := nfB_prd_fields hs
      refine nfB_prd_of_parts (by simp; omega) ?_ ?_
      · intro x hx
        rcases List.mem_cons.1 hx with rfl | hx
        · simp [rtype]
        · exact ht x hx
      · intro x hx
        rcases List.mem_cons.1 hx with rfl | hx
        · exact hr
        · exact hn x hx
    | lit c | sum l | and l | kst rr =>
      refine nfB_prd_of_parts (by simp) ?_ ?_
      · intro x hx
        rcases List.mem_cons.1 hx with rfl | hx
        · simp [rtype]
        · simp only [List.mem_singleton] at hx; subst hx
          refine ⟨hs1, hs2, by simp [rtype]⟩
      · intro x hx
        rcases List.mem_cons.1 hx with rfl | hx
        · exact hr
        · simp only [List.mem_singleton] at hx; subst hx; exact hs
  | prd rs =>
    obtain ⟨hlr, htr, hnr⟩ := nfB_prd_fields hr
    cases s with
    | zer => exact absurd rfl hs1
    | one => exact absurd rfl hs2
    | prd ss =>
      obtain ⟨hls, hts, hns⟩ := nfB_prd_fields hs
      refine nfB_prd_of_parts (by simp; omega) ?_ ?_
      · intro x hx
        rcases List.mem_append.1 hx with hx | hx
        · exact htr x hx
        · exact hts x hx
      · intro x hx
        rcases List.mem_append.1 hx with hx | hx
        · exact hnr x hx
        · exact hns x hx
    | lit c | sum l | and l | kst rr =>
      refine nfB_prd_of_parts (by simp; omega) ?_ ?_
      · intro x hx
        rcases List.mem_append.1 hx with hx | hx
        · exact htr x hx
        · simp only [List.mem_singleton] at hx; subst hx
          refine ⟨hs1, hs2, by simp [rtype]⟩
      · intro x hx
        rcases List.mem_append.1 hx with hx | hx
        · exact hnr x hx
        · simp only [List.mem_singleton] at hx; subst hx; exact hs

theorem nfB_foldSumMake :
    ∀ {D : List (Rex T)} {acc : Rex T}, nfB acc = true →
      (∀ d ∈ D, nfB d = true) → nfB (D.foldl sumMake acc) = true := by
  intro D
  induction D with
  | nil => intro acc ha _; exact ha
  | cons d ds ih =>
    intro acc ha hD
    exact ih (nfB_sumMake ha (hD d (by simp))) fun e he => hD e (by simp [he])

theorem derivSet_mem {x : T} :
    ∀ {rs acc : List (Rex T)} {z : Rex T}, z ∈ derivSet x rs acc →
      z ∈ acc ∨ ∃ r ∈ rs, z = rderiv x r ∧ rtype (rderiv x r) ≠ 1 := by
  intro rs
  induction rs with
  | nil => intro acc z hz; exact Or.inl (by simpa [derivSet] using hz)
  | cons r rs ih =>
    intro acc z hz
    simp only [derivSet] at hz
    by_cases ht : rtype (rderiv x r) = 1
    · rw [if_pos ht] at hz
      rcases ih hz with h | ⟨r', hr', he⟩
      · exact Or.inl h
      · exact Or.inr ⟨r', by simp [hr'], he⟩
    · rw [if_neg ht] at hz
      rcases ih hz with h | ⟨r', hr', he⟩
      · rcases mem_sinsert_sub h with h1 | h1
        · exact Or.inl h1
        · exact Or.inr ⟨r, by simp, h1, ht⟩
      · exact Or.inr ⟨r', by simp [hr'], he⟩

theorem rmem_derivSet_mono {x : T} :
    ∀ {rs acc : List (Rex T)} {z : Rex T}, rmem z acc = true →
      rmem z (derivSet x rs acc) = true := by
  intro rs
  induction rs with
  | nil => intro acc z h; simpa [derivSet] using h
  | cons r rs ih =>
    intro acc z h
    simp only [derivSet]
    by_cases ht : rtype (rderiv x r) = 1
    · rw [if_pos ht]; exact ih h
    · rw [if_neg ht]
      exact ih (rmem_sinsert.2 (Or.inl h))

theorem derivSet_covers {x : T} :
    ∀ {rs acc : List (Rex T)} {r : Rex T}, r ∈ rs →
      rtype (rderiv x r) ≠ 1 →
      rmem (rderiv x r) (derivSet x rs acc) = true := by
  intro rs
  induction rs with
  | nil => intro acc r h; simp at h
  | cons r0 rs ih =>
    intro acc r hmem ht
    simp only [derivSet]
    rcases List.mem_cons.1 hmem with rfl | hmem
    · rw [if_neg ht]
      exact rmem_derivSet_mono (rmem_sinsert.2 (Or.inr (requal_refl _)))
    · by_cases ht0 : rtype (rderiv x r0) = 1
      · rw [if_pos ht0]; exact ih hmem ht
      · rw [if_neg ht0]; exact ih hmem ht

theorem derivSet_nodup {x : T} :
    ∀ {rs acc : List (Rex T)},
      (∀ a ∈ acc, nfB a = true) → nodupR acc = true →
      (∀ r ∈ rs, nfB (rderiv x r) = true) →
      nodupR (derivSet x rs acc) = true := by
  intro rs
  induction rs with
  | nil => intro acc _ h _; simpa [derivSet] using h
  | cons r rs ih =>
    intro acc hacc hnd hrs
    simp only [derivSet]
    by_cases ht : rtype (rderiv x r) = 1
    · rw [if_pos ht]; exact ih hacc hnd fun r' h => hrs r' (by simp [h])
    · rw [if_neg ht]
      refine ih ?_ (nodupR_sinsert (hrs r (by simp)) hacc hnd)
        fun r' h => hrs r' (by simp [h])
      intro a ha
      rcases mem_sinsert_sub ha with h | h
      · exact hacc a h
      · exact h ▸ hrs r (by simp)

theorem derivAnd_eq_none {x : T} :
    ∀ {rs acc : List (Rex T)},
      derivAnd x rs acc = none ↔ ∃ r ∈ rs, rtype (rderiv x r) = 1 := by
  intro rs
  induction rs with
  | nil => intro acc; simp [derivAnd]
  | cons r rs ih =>
    intro acc
    simp only [derivAnd]
    by_cases ht : rtype (rderiv x r) = 1
    · rw [if_pos ht]
      constructor
      · intro _; exact ⟨r, by simp, ht⟩
      · intro _; rfl
    · rw [if_neg ht, ih]
      constructor
      · rintro ⟨r', hr', h⟩; exact ⟨r', by simp [hr'], h⟩
      · rintro ⟨r', hr', h⟩
        rcases List.mem_cons.1 hr' with rfl | hm
        · exact absurd h ht
        · exact ⟨r', hm, h⟩

theorem derivAnd_mem {x : T} :
    ∀ {rs acc ds : List (Rex T)} {z : Rex T},
      derivAnd x rs acc = some ds → z ∈ ds →
      z ∈ acc ∨ ∃ r ∈ rs, z = rderiv x r ∧ rtype (rderiv x r) ≠ 1 := by
  intro rs
  induction rs with
  | nil =>
    intro acc ds z h hz
    simp only [derivAnd, Option.some.injEq] at h
    exact Or.inl (h ▸ hz)
  | cons r rs ih =>
    intro acc ds z h hz
    simp only [derivAnd] at h
    by_cases ht : rtype (rderiv x r) = 1
    · rw [if_pos ht] at h; cases h
    · rw [if_neg ht] at h
      rcases ih h hz with h1 | ⟨r', hr', he⟩
      · rcases mem_sinsert_sub h1 with h2 | h2
        · exact Or.inl h2
        · exact Or.inr ⟨r, by simp, h2, ht⟩
      · exact Or.inr ⟨r', by simp [hr'], he⟩

theorem rmem_derivAnd_mono {x : T} :
    ∀ {rs acc ds : List (Rex T)} {z : Rex T},
      derivAnd x rs acc = some ds → rmem z acc = true → rmem z ds = true := by
  intro rs
  induction rs with
  | nil =>
    intro acc ds z h hz
    simp only [derivAnd, Option.some.injEq] at h
    exact h ▸ hz
  | cons r rs ih =>
    intro acc ds z h hz
    simp only [derivAnd] at h
    by_cases ht : rtype (rderiv x r) = 1
    · rw [if_pos ht] at h; cases h
    · rw [if_neg ht] at h
      exact ih h (rmem_sinsert.2 (Or.inl hz))

theorem derivAnd_covers {x : T} :
    ∀ {rs acc ds : List (Rex T)} {r : Rex T},
      derivAnd x rs acc = some ds → r ∈ rs →
      rmem (rderiv x r) ds = true := by
  intro rs
  induction rs with
  | nil => intro acc ds r _ h; simp at h
  | cons r0 rs ih =>
    intro acc ds r h hmem
    simp only [derivAnd] at h
    by_cases ht : rtype (rderiv x r0) = 1
    · rw [if_pos ht] at h; cases h
    · rw [if_neg ht] at h
      rcases List.mem_cons.1 hmem with rfl | hmem
      · exact rmem_derivAnd_mono h (rmem_sinsert.2 (Or.inr (requal_refl _)))
      · exact ih h hmem

theorem derivAnd_nodup {x : T} :
    ∀ {rs acc ds : List (Rex T)},
      derivAnd x rs acc = some ds →
      (∀ a ∈ acc, nfB a = true) → nodupR acc = true →
      (∀ r ∈ rs, nfB (rderiv x r) = true) →
      nodupR ds = true := by
  intro rs
  induction rs with
  | nil =>
    intro acc ds h hacc hnd _
    simp only [derivAnd, Option.some.injEq] at h
    exact h ▸ hnd
  | cons r rs ih =>
    intro acc ds h hacc hnd hrs
    simp only [derivAnd] at h
    by_cases ht : rtype (rderiv x r) = 1
    · rw [if_pos ht] at h; cases h
    · rw [if_neg ht] at h
      refine ih h ?_ (nodupR_sinsert (hrs r (by simp)) hacc hnd)
        fun r' h' => hrs r' (by simp [h'])
      intro a ha
      rcases mem_sinsert_sub ha with h1 | h1
      · exact hacc a h1
      · exact h1 ▸ hrs r (by simp)

theorem nfB_rderiv (x : T) :
    ∀ (r : Rex T), nfB r = true → nfB (rderiv x r) = true := by
  have key : ∀ (n : ℕ) (r : Rex T), sizeOf r ≤ n → nfB r = true →
      nfB (rderiv x r) = true := by
    intro n
    induction n with
    | zero => intro r hr; exact absurd hr (by have := sizeOf_rex_pos r; omega)
    | succ n ih =>
      intro r hr h
      cases r with
      | zer => simp [rderiv, nfB]
      | one => simp [rderiv, nfB]
      | lit c => by_cases hx : x = c <;> simp [rderiv, hx, nfB]
      | sum xs =>
        obtain ⟨h1, h2, h3, h4⟩ := nfB_sum_fields h
        have hds : ∀ r' ∈ xs, nfB (rderiv x r') = true := by
          intro r' hr'
          refine ih r' ?_ (h4 r' hr')
          have := List.sizeOf_lt_of_mem hr'
          simp at hr
          omega
        have hmem : ∀ z ∈ derivSet x xs ([] : List (Rex T)), nfB z = true := by
          intro z hz
          rcases derivSet_mem hz with h' | ⟨r', hr', he, -⟩
          · simp at h'
          · exact he ▸ hds r' hr'
        simp only [rderiv]
        rcases hD : derivSet x xs ([] : List (Rex T)) with _ | ⟨d1, _ | ⟨d2, rest⟩⟩
        · simp [nfB]
        · exact hmem d1 (by rw [hD]; simp)
        · exact nfB_foldSumMake (by simp [nfB])
            fun e he => hmem e (by rw [hD]; exact he)
      | and xs =>
        obtain ⟨h1, h2, h3, h4⟩ := nfB_and_fields h
        have hds : ∀ r' ∈ xs, nfB (rderiv x r') = true := by
          intro r' hr'
          refine ih r' ?_ (h4 r' hr')
          have := List.sizeOf_lt_of_mem hr'
          simp at hr
          omega
        simp only [rderiv]
        rcases hD : derivAnd x xs ([] : List (Rex T)) with _ | ⟨_ | ⟨d1, _ | ⟨d2, rest⟩⟩⟩
        · simp [nfB]
        · simp [nfB]
        · rcases derivAnd_mem hD (by simp : d1 ∈ [d1]) with h' | ⟨r', hr', he, -⟩
          · simp at h'
          · exact he ▸ hds r' hr'
        · have hmem : ∀ z ∈ d1 :: d2 :: rest,
              z ∈ ([] : List (Rex T)) ∨
                ∃ r' ∈ xs, z = rderiv x r' ∧ rtype (rderiv x r') ≠ 1 :=
            fun z hz => derivAnd_mem hD hz
          show nfB (Rex.and (d1 :: d2 :: rest)) = true
          simp only [nfB, Bool.and_eq_true, decide_eq_true_iff]
          refine ⟨⟨⟨by simp, ?_⟩, ?_⟩, ?_⟩
          · simp only [noTypes, List.all_eq_true, decide_eq_true_iff]
            intro z hz
            rcases hmem z hz with h' | ⟨r', hr', he, hne⟩
            · simp at h'
            · simpa [he] using hne
          · exact derivAnd_nodup hD (by simp) (by simp [nodupR]) hds
          · rw [nfList_iff]
            intro z hz
            rcases hmem z hz with h' | ⟨r', hr', he, -⟩
            · simp at h'
            · exact he ▸ hds r' hr'
      | prd xs =>
        obtain ⟨h1, h2, h4⟩ := nfB_prd_fields h
        cases xs with
        | nil => simp at h1
        | cons i0 t =>
          cases t with
          | nil => simp at h1
          | cons s rest =>
            have hni0 : nfB (rderiv x i0) = true := by
              refine ih i0 ?_ (h4 i0 (by simp))
              simp at hr
              omega
            cases rest with
            | nil =>
              have hns : nfB (rderiv x s) = true := by
                refine ih s ?_ (h4 s (by simp))
                simp at hr
                omega
              simp only [rderiv]
              by_cases hnl : nullableB i0 = true
              · rw [if_pos hnl]
                exact nfB_sumMake (nfB_prdMake hni0 (h4 s (by simp))) hns
              · rw [if_neg hnl]
                exact nfB_prdMake hni0 (h4 s (by simp))
            | cons r3 rest2 =>
              have hnt : nfB (Rex.prd (s :: r3 :: rest2)) = true := by
                refine nfB_prd_of_parts (by simp) ?_ ?_
                · intro z hz; exact h2 z (by simp [hz])
                · intro z hz; exact h4 z (by simp [hz])
              have hnd : nfB (rderiv x (Rex.prd (s :: r3 :: rest2))) = true := by
                refine ih (Rex.prd (s :: r3 :: rest2)) ?_ hnt
                have := sizeOf_rex_pos i0
                simp at hr ⊢
                omega
              simp only [rderiv]
              by_cases hnl : nullableB i0 = true
              · rw [if_pos hnl]
                exact nfB_sumMake (nfB_prdMake hni0 hnt) hnd
              · rw [if_neg hnl]
                exact nfB_prdMake hni0 hnt
      | kst r0 =>
        obtain ⟨ht, h0⟩ := nfB_kst_fields h
        have hn0 : nfB (rderiv x r0) = true := by
          refine ih r0 ?_ h0
          simp at hr
          omega
        simp only [rderiv]
        exact nfB_prdMake hn0 (nfB_kstMake h0)
  intro r
  exact key (sizeOf r) r le_rfl

theorem nfB_derivWord {r : Rex T} {w : List T} (h : nfB r = true) :
    nfB (derivWord r w) = true := by
  induction w generalizing r with
  | nil => simpa [derivWord] using h
  | cons l w ih =>
    show nfB (derivWord (rderiv l r) w) = true
    exact ih (nfB_rderiv l r h)

theorem requal_kstMake {a b : Rex T} (hq : requal a b = true) :
    requal (kstMake a) (kstMake b) = true := by
  have ht := requal_rtype hq
  unfold kstMake
  rw [← ht]
  by_cases h1 : rtype a = 2 ∨ rtype a = 1
  · rw [if_pos h1, if_pos h1]; exact requal_refl _
  · rw [if_neg h1, if_neg h1]
    by_cases h2 : rtype a = 7
    · rw [if_pos h2, if_pos h2]; exact hq
    · rw [if_neg h2, if_neg h2]
      simpa [requal] using hq

theorem requal_prd_of_reqList {as bs : List (Rex T)}
    (h : reqList as bs = true) : requal (Rex.prd as) (Rex.prd bs) = true := by
  simp only [requal, Bool.and_eq_true, decide_eq_true_iff]
  exact ⟨reqList_length h, h⟩

theorem requal_prdMake {a a' b b' : Rex T}
    (hna : nfB a = true) (hna' : nfB a' = true)
    (hnb : nfB b = true) (hnb' : nfB b' = true)
    (hqa : requal a a' = true) (hqb : requal b b' = true) :
    requal (prdMake a b) (prdMake a' b') = true := by
  have hta := requal_rtype hqa
  have htb := requal_rtype hqb
  unfold prdMake
  by_cases h1 : rtype a = 1 ∨ rtype b = 2
  · have h1' : rtype a' = 1 ∨ rtype b' = 2 := by rw [← hta, ← htb]; exact h1
    rw [if_pos h1, if_pos h1']
    exact hqa
  have h1' : ¬(rtype a' = 1 ∨ rtype b' = 2) := by rw [← hta, ← htb]; exact h1
  rw [if_neg h1, if_neg h1']
  by_cases h2 : rtype b = 1 ∨ rtype a = 2
  · have h2' : rtype b' = 1 ∨ rtype a' = 2 := by rw [← hta, ← htb]; exact h2
    rw [if_pos h2, if_pos h2']
    exact hqb
  have h2' : ¬(rtype b' = 1 ∨ rtype a' = 2) := by rw [← hta, ← htb]; exact h2
  rw [if_neg h2, if_neg h2']
  push_neg at h1 h2
  obtain ⟨ha1, hb2⟩ := h1
  obtain ⟨hb1, ha2⟩ := h2
  cases a with
  | zer => exact absurd rfl ha1
  | one => exact absurd rfl ha2
  | kst ri =>
    cases a' with
    | kst ri' =>
      have hqa2 : requal ri ri' = true := by simpa [requal] using hqa
      have hri : nfB ri = true := (nfB_kst_fields hna).2
      have hri' : nfB ri' = true := (nfB_kst_fields hna').2
      cases b with
      | zer => exact absurd rfl hb1
      | one => exact absurd rfl hb2
      | kst si =>
        cases b' with
        | kst si' =>
          have hqb2 : requal si si' = true := by simpa [requal] using hqb
          have hsi : nfB si = true := (nfB_kst_fields hnb).2
          have hsi' : nfB si' = true := (nfB_kst_fields hnb').2
          have hcond : requal ri si = true ↔ requal ri' si' = true := by
            constructor
            · intro h
              exact requal_trans ri' si si'
                (requal_trans ri' ri si (requal_symm ri ri' hri hri' hqa2) h) hqb2
            · intro h
              exact requal_trans ri si' si
                (requal_trans ri ri' si' hqa2 h)
                (requal_symm si si' hsi hsi' hqb2)
          show requal
            (if requal ri si then Rex.kst ri else Rex.prd [Rex.kst ri, Rex.kst si])
            (if requal ri' si' then Rex.kst ri' else
              Rex.prd [Rex.kst ri', Rex.kst si']) = true
          by_cases hc : requal ri si = true
          · rw [if_pos hc, if_pos (hcond.1 hc)]
            simpa [requal] using hqa2
          · rw [if_neg hc, if_neg fun h => hc (hcond.2 h)]
            refine requal_prd_of_reqList ?_
            simp only [reqList, Bool.and_eq_true]
            exact ⟨by simpa [requal] using hqa2,
              by simpa [requal] using hqb2, trivial⟩
        | zer | one | lit c | sum l | and l | prd l => simp [rtype] at htb
      | prd bs =>
        cases b' with
        | prd bs' =>
          have hl : reqList bs bs' = true := by
            simp only [requal, Bool.and_eq_true] at hqb
            exact hqb.2
          refine requal_prd_of_reqList ?_
          simp only [reqList, Bool.and_eq_true]
          exact ⟨hqa, hl⟩
        | zer | one | lit c | sum l | and l | kst rr => simp [rtype] at htb
      | lit c =>
        cases b' with
        | lit c' =>
          refine requal_prd_of_reqList ?_
          simp only [reqList, Bool.and_eq_true]
          exact ⟨hqa, hqb, trivial⟩
        | zer | one | sum l | and l | prd l | kst rr => simp [rtype] at htb
      | sum l =>
        cases b' with
        | sum l' =>
          refine requal_prd_of_reqList ?_
          simp only [reqList, Bool.and_eq_true]
          exact ⟨hqa, hqb, trivial⟩
        | zer | one | lit c | and l2 | prd l2 | kst rr => simp [rtype] at htb
      | and l =>
        cases b' with
        | and l' =>
          refine requal_prd_of_reqList ?_
          simp only [reqList, Bool.and_eq_true]
          exact ⟨hqa, hqb, trivial⟩
        | zer | one | lit c | sum l2 | prd l2 | kst rr => simp [rtype] at htb
    | zer | one | lit c | sum l | and l | prd l => simp [rtype] at hta
  | prd as1 =>
    cases a' with
    | prd as1' =>
      have hla : reqList as1 as1' = true := by
        simp only [requal, Bool.and_eq_true] at hqa
        exact hqa.2
      cases b with
      | zer => exact absurd rfl hb1
      | one => exact absurd rfl hb2
      | prd bs =>
        cases b' with
        | prd bs' =>
          have hlb : reqList bs bs' = true := by
            simp only [requal, Bool.and_eq_true] at hqb
            exact hqb.2
          exact requal_prd_of_reqList (reqList_append hla hlb)
        | zer | one | lit c | sum l | and l | kst rr => simp [rtype] at htb
      | lit c =>
        cases b' with
        | lit c' =>
          exact requal_prd_of_reqList (reqList_append hla
            (by simp only [reqList, Bool.and_eq_true]; exact ⟨hqb, trivial⟩))
        | zer | one | sum l | and l | prd l | kst rr => simp [rtype] at htb
      | sum l =>
        cases b' with
        | sum l' =>
          exact requal_prd_of_reqList (reqList_append hla
            (by simp only [reqList, Bool.and_eq_true]; exact ⟨hqb, trivial⟩))
        | zer | one | lit c | and l2 | prd l2 | kst rr => simp [rtype] at htb
      | and l =>
        cases b' with
        | and l' =>
          exact requal_prd_of_reqList (reqList_append hla
            (by simp only [reqList, Bool.and_eq_true]; exact ⟨hqb, trivial⟩))
        | zer | one | lit c | sum l2 | prd l2 | kst rr => simp [rtype] at htb
      | kst si =>
        cases b' with
        | kst si' =>
          exact requal_prd_of_reqList (reqList_append hla
            (by simp only [reqList, Bool.and_eq_true]; exact ⟨hqb, trivial⟩))
        | zer | one | lit c | sum l | and l | prd l => simp [rtype] at htb
    | zer | one | lit c | sum l | and l | kst rr => simp [rtype] at hta
  | lit c0 =>
    cases a' with
    | lit c0' =>
      cases b with
      | zer => exact absurd rfl hb1
      | one => exact absurd rfl hb2
      | prd bs =>
        cases b' with
        | prd bs' =>
          have hlb : reqList bs bs' = true := by
            simp only [requal, Bool.and_eq_true] at hqb
            exact hqb.2
          refine requal_prd_of_reqList ?_
          simp only [reqList, Bool.and_eq_true]
          exact ⟨hqa, hlb⟩
        | zer | one | lit c | sum l | and l | kst rr => simp [rtype] at htb
      | lit c =>
        cases b' with
        | lit c' =>
          refine requal_prd_of_reqList ?_
          simp only [reqList, Bool.and_eq_true]
          exact ⟨hqa, hqb, trivial⟩
        | zer | one | sum l | and l | prd l | kst rr => simp [rtype] at htb
      | sum l =>
        cases b' with
        | sum l' =>
          refine requal_prd_of_reqList ?_
          simp only [reqList, Bool.and_eq_true]
          exact ⟨hqa, hqb, trivial⟩
        | zer | one | lit c | and l2 | prd l2 | kst rr => simp [rtype] at htb
      | and l =>
        cases b' with
        | and l' =>
          refine requal_prd_of_reqList ?_
          simp only [reqList, Bool.and_eq_true]
          exact ⟨hqa, hqb, trivial⟩
        | zer | one | lit c | sum l2 | prd l2 | kst rr => simp [rtype] at htb
      | kst si =>
        cases b' with
        | kst si' =>
          refine requal_prd_of_reqList ?_
          simp only [reqList, Bool.and_eq_true]
          exact ⟨hqa, hqb, trivial⟩
        | zer | one | lit c | sum l | and l | prd l => simp [rtype] at htb
    | zer | one | sum l | and l | prd l | kst rr => simp [rtype] at hta
  | sum ll0 =>
    cases a' with
    | sum ll0' =>
      cases b with
      | zer => exact absurd rfl hb1
      | one => exact absurd rfl hb2
      | prd bs =>
        cases b' with
        | prd bs' =>
          have hlb : reqList bs bs' = true := by
            simp only [requal, Bool.and_eq_true] at hqb
            exact hqb.2
          refine requal_prd_of_reqList ?_
          simp only [reqList, Bool.and_eq_true]
          exact ⟨hqa, hlb⟩
        | zer | one | lit c | sum l | and l | kst rr => simp [rtype] at htb
      | lit c =>
        cases b' with
        | lit c' =>
          refine requal_prd_of_reqList ?_
          simp only [reqList, Bool.and_eq_true]
          exact ⟨hqa, hqb, trivial⟩
        | zer | one | sum l | and l | prd l | kst rr => simp [rtype] at htb
      | sum l =>
        cases b' with
        | sum l' =>
          refine requal_prd_of_reqList ?_
          simp only [reqList, Bool.and_eq_true]
          exact ⟨hqa, hqb, trivial⟩
        | zer | one | lit c | and l2 | prd l2 | kst rr => simp [rtype] at htb
      | and l =>
        cases b' with
        | and l' =>
          refine requal_prd_of_reqList ?_
          simp only [reqList, Bool.and_eq_true]
          exact ⟨hqa, hqb, trivial⟩
        | zer | one | lit c | sum l2 | prd l2 | kst rr => simp [rtype] at htb
      | kst si =>
        cases b' with
        | kst si' =>
          refine requal_prd_of_reqList ?_
          simp only [reqList, Bool.and_eq_true]
          exact ⟨hqa, hqb, trivial⟩
        | zer | one | lit c | sum l | and l | prd l => simp [rtype] at htb
    | zer | one | lit c | and l | prd l | kst rr => simp [rtype] at hta
  | and ll0 =>
    cases a' with
    | and ll0' =>
      cases b with
      | zer => exact absurd rfl hb1
      | one => exact absurd rfl hb2
      | prd bs =>
        cases b' with
        | prd bs' =>
          have hlb : reqList bs bs' = true := by
            simp only [requal, Bool.and_eq_true] at hqb
            exact hqb.2
          refine requal_prd_of_reqList ?_
          simp only [reqList, Bool.and_eq_true]
          exact ⟨hqa, hlb⟩
        | zer | one | lit c | sum l | and l | kst rr => simp [rtype] at htb
      | lit c =>
        cases b' with
        | lit c' =>
          refine requal_prd_of_reqList ?_
          simp only [reqList, Bool.and_eq_true]
          exact ⟨hqa, hqb, trivial⟩
        | zer | one | sum l | and l | prd l | kst rr => simp [rtype] at htb
      | sum l =>
        cases b' with
        | sum l' =>
          refine requal_prd_of_reqList ?_
          simp only [reqList, Bool.and_eq_true]
          exact ⟨hqa, hqb, trivial⟩
        | zer | one | lit c | and l2 | prd l2 | kst rr => simp [rtype] at htb
      | and l =>
        cases b' with
        | and l' =>
          refine requal_prd_of_reqList ?_
          simp only [reqList, Bool.and_eq_true]
          exact ⟨hqa, hqb, trivial⟩
        | zer | one | lit c | sum l2 | prd l2 | kst rr => simp [rtype] at htb
      | kst si =>
        cases b' with
        | kst si' =>
          refine requal_prd_of_reqList ?_
          simp only [reqList, Bool.and_eq_true]
          exact ⟨hqa, hqb, trivial⟩
        | zer | one | lit c | sum l | and l | prd l => simp [rtype] at htb
    | zer | one | lit c | sum l | prd l | kst rr => simp [rtype] at hta

theorem requal_sumMake {a a' b b' : Rex T}
    (hna : nfB a = true) (hna' : nfB a' = true)
    (hnb : nfB b = true) (hnb' : nfB b' = true)
    (hqa : requal a a' = true) (hqb : requal b b' = true) :
    requal (sumMake a b) (sumMake a' b') = true := by
  refine requal_of_melems_iff (nfB_sumMake hna hnb) (nfB_sumMake hna' hnb') ?_
  intro z
  rw [rmem_melems_sumMake hna hnb z, rmem_melems_sumMake hna' hnb' z]
  constructor
  · rintro (h | h)
    · exact Or.inl (rmem_melems_of_requal hqa h)
    · exact Or.inr (rmem_melems_of_requal hqb h)
  · rintro (h | h)
    · exact Or.inl (rmem_melems_of_requal (requal_symm a a' hna hna' hqa) h)
    · exact Or.inr (rmem_melems_of_requal (requal_symm b b' hnb hnb' hqb) h)

theorem requal_nullable :
    ∀ (x y : Rex T), nfB x = true → nfB y = true → requal x y = true →
      nullableB x = nullableB y := by
  have key : ∀ (n : ℕ) (x : Rex T), sizeOf x ≤ n → ∀ (y : Rex T),
      nfB x = true → nfB y = true → requal x y = true →
      nullableB x = nullableB y := by
    intro n
    induction n with
    | zero => intro x hx; exact absurd hx (by have := sizeOf_rex_pos x; omega)
    | succ n ih =>
      intro x hx y hnx hny hxy
      cases x with
      | zer => cases y <;> simp_all [requal]
      | one => cases y <;> simp_all [requal]
      | lit a => cases y <;> simp_all [requal, nullableB]
      | kst r =>
        cases y with
        | kst ry => simp [nullableB]
        | zer | one | lit c | sum l | and l | prd l => simp [requal] at hxy
      | sum xs =>
        cases y with
        | sum ys =>
          simp only [requal, Bool.and_eq_true, decide_eq_true_iff] at hxy
          obtain ⟨hlen, hincl⟩ := hxy
          obtain ⟨-, -, hnd, hmem⟩ := nfB_sum_fields hnx
          obtain ⟨-, -, hndy, hmemy⟩ := nfB_sum_fields hny
          have hsym : ∀ a ∈ xs, ∀ b ∈ ys, requal a b = true →
              requal b a = true :=
            fun a ha b hb => requal_symm a b (hmem a ha) (hmemy b hb)
          have hfwd := rincl_iff.1 hincl
          have hbwd : ∀ b ∈ ys, rmem b xs = true :=
            rincl_exchange xs ys hnd hsym hfwd (by omega)
          have hih : ∀ u ∈ xs, ∀ v, nfB v = true → requal u v = true →
              nullableB u = nullableB v := by
            intro u hu v hv huv
            refine ih u ?_ v (hmem u hu) hv huv
            have := List.sizeOf_lt_of_mem hu
            simp at hx
            omega
          simp only [nullableB]
          have hiff : anyNullable xs = true ↔ anyNullable ys = true := by
            rw [anyNullable_iff, anyNullable_iff]
            constructor
            · rintro ⟨u, hu, hnu⟩
              obtain ⟨v, hv, huv⟩ := rmem_iff.1 (hfwd u hu)
              exact ⟨v, hv, (hih u hu v (hmemy v hv) huv) ▸ hnu⟩
            · rintro ⟨v, hv, hnv⟩
              obtain ⟨u, hu, hvu⟩ := rmem_iff.1 (hbwd v hv)
              have huv := requal_symm v u (hmemy v hv) (hmem u hu) hvu
              exact ⟨u, hu, (hih u hu v (hmemy v hv) huv).symm ▸ hnv⟩
          by_cases hax : anyNullable xs = true
          · rw [hax, (hiff.1 hax)]
          · rw [Bool.not_eq_true] at hax
            rw [hax]
            by_cases hay : anyNullable ys = true
            · exact absurd (hiff.2 hay) (by simp [hax])
            · rw [Bool.not_eq_true] at hay
              rw [hay]
        | zer | one | lit c | and l | prd l | kst r => simp [requal] at hxy
      | and xs =>
        cases y with
        | and ys =>
          simp only [requal, Bool.and_eq_true, decide_eq_true_iff] at hxy
          obtain ⟨hlen, hincl⟩ := hxy
          obtain ⟨-, -, hnd, hmem⟩ := nfB_and_fields hnx
          obtain ⟨-, -, hndy, hmemy⟩ := nfB_and_fields hny
          have hsym : ∀ a ∈ xs, ∀ b ∈ ys, requal a b = true →
              requal b a = true :=
            fun a ha b hb => requal_symm a b (hmem a ha) (hmemy b hb)
          have hfwd := rincl_iff.1 hincl
          have hbwd : ∀ b ∈ ys, rmem b xs = true :=
            rincl_exchange xs ys hnd hsym hfwd (by omega)
          have hih : ∀ u ∈ xs, ∀ v, nfB v = true → requal u v = true →
              nullableB u = nullableB v := by
            intro u hu v hv huv
            refine ih u ?_ v (hmem u hu) hv huv
            have := List.sizeOf_lt_of_mem hu
            simp at hx
            omega
          simp only [nullableB]
          have hiff : allNullable xs = true ↔ allNullable ys = true := by
            rw [allNullable_iff, allNullable_iff]
            constructor
            · intro hall v hv
              obtain ⟨u, hu, hvu⟩ := rmem_iff.1 (hbwd v hv)
              have huv := requal_symm v u (hmemy v hv) (hmem u hu) hvu
              exact (hih u hu v (hmemy v hv) huv) ▸ hall u hu
            · intro hall u hu
              obtain ⟨v, hv, huv⟩ := rmem_iff.1 (hfwd u hu)
              exact (hih u hu v (hmemy v hv) huv).symm ▸ hall v hv
          by_cases hax : allNullable xs = true
          · rw [hax, (hiff.1 hax)]
          · rw [Bool.not_eq_true] at hax
            rw [hax]
            by_cases hay : allNullable ys = true
            · exact absurd (hiff.2 hay) (by simp [hax])
            · rw [Bool.not_eq_true] at hay
              rw [hay]
        | zer | one | lit c | sum l | prd l | kst r => simp [requal] at hxy
      | prd xs =>
        cases y with
        | prd ys =>
          simp only [requal, Bool.and_eq_true, decide_eq_true_iff] at hxy
          obtain ⟨-, h2⟩ := hxy
          simp only [nfB, Bool.and_eq_true, decide_eq_true_iff] at hnx hny
          have hlx := hnx.2
          have hly := hny.2
          simp only [nullableB]
          rw [reqList_iff] at h2
          clear hnx hny
          induction h2 with
          | nil => rfl
          | @cons a b as bs hab h2t iht =>
            simp only [nfList, Bool.and_eq_true] at hlx hly
            simp only [allNullable]
            rw [ih a (by simp at hx; omega) b hlx.1 hly.1 hab]
            by_cases hb0 : nullableB b = true
            · simp only [hb0, Bool.true_and]
              exact iht (by simp at hx ⊢; omega) hlx.2 hly.2
            · rw [Bool.not_eq_true] at hb0
              simp [hb0]
        | zer | one | lit c | sum l | and l | kst r => simp [requal] at hxy
  intro x y
  exact key (sizeOf x) x le_rfl y

theorem rmem_melems_foldSumMake {z : Rex T} :
    ∀ {D : List (Rex T)} {acc : Rex T}, nfB acc = true →
      (∀ d ∈ D, nfB d = true) →
      (rmem z (melems (D.foldl sumMake acc)) = true ↔
        rmem z (melems acc) = true ∨ ∃ d ∈ D, rmem z (melems d) = true) := by
  intro D
  induction D with
  | nil => intro acc _ _; simp
  | cons d ds ih =>
    intro acc hacc hD
    show rmem z (melems (ds.foldl sumMake (sumMake acc d))) = true ↔ _
    rw [ih (nfB_sumMake hacc (hD d (by simp))) fun e he => hD e (by simp [he])]
    rw [rmem_melems_sumMake hacc (hD d (by simp)) z]
    constructor
    · rintro ((h | h) | ⟨e, he, hz⟩)
      · exact Or.inl h
      · exact Or.inr ⟨d, by simp, h⟩
      · exact Or.inr ⟨e, by simp [he], hz⟩
    · rintro (h | ⟨e, he, hz⟩)
      · exact Or.inl (Or.inl h)
      · rcases List.mem_cons.1 he with rfl | he2
        · exact Or.inl (Or.inr hz)
        · exact Or.inr ⟨e, he2, hz⟩

theorem requal_rderiv (x : T) :
    ∀ (a : Rex T), nfB a = true → ∀ (b : Rex T), nfB b = true →
      requal a b = true → requal (rderiv x a) (rderiv x b) = true := by
  have key : ∀ (n : ℕ) (a : Rex T), sizeOf a ≤ n → nfB a = true →
      ∀ (b : Rex T), nfB b = true → requal a b = true →
      requal (rderiv x a) (rderiv x b) = true := by
    intro n
    induction n with
    | zero => intro a ha; exact absurd ha (by have := sizeOf_rex_pos a; omega)
    | succ n ih =>
      intro a hsz hna b hnb hab
      cases a with
      | zer =>
        cases b with
        | zer => exact requal_refl _
        | one | lit c | sum l | and l | prd l | kst r => simp [requal] at hab
      | one =>
        cases b with
        | one => exact requal_refl _
        | zer | lit c | sum l | and l | prd l | kst r => simp [requal] at hab
      | lit c =>
        cases b with
        | lit c2 =>
          have : c = c2 := by simpa [requal] using hab
          subst this
          exact requal_refl _
        | zer | one | sum l | and l | prd l | kst r => simp [requal] at hab
      | kst r0 =>
        cases b with
        | kst r02 =>
          have hq : requal r0 r02 = true := by simpa [requal] using hab
          have h0 := (nfB_kst_fields hna).2
          have h02 := (nfB_kst_fields hnb).2
          simp only [rderiv]
          refine requal_prdMake (nfB_rderiv x r0 h0) (nfB_rderiv x r02 h02)
            (nfB_kstMake h0) (nfB_kstMake h02) ?_ (requal_kstMake hq)
          refine ih r0 ?_ h0 r02 h02 hq
          simp at hsz
          omega
        | zer | one | lit c | sum l | and l | prd l => simp [requal] at hab
      | prd xs =>
        cases b with
        | prd ys =>
          simp only [requal, Bool.and_eq_true, decide_eq_true_iff] at hab
          obtain ⟨hlen, hrl⟩ := hab
          obtain ⟨hl2, htx, hmx⟩ := nfB_prd_fields hna
          obtain ⟨hl2y, hty, hmy⟩ := nfB_prd_fields hnb
          cases xs with
          | nil => simp at hl2
          | cons i0 t =>
            cases ys with
            | nil => simp at hl2y
            | cons j0 u =>
              have hq0 : requal i0 j0 = true := by
                simp only [reqList, Bool.and_eq_true] at hrl
                exact hrl.1
              have hrt : reqList t u = true := by
                simp only [reqList, Bool.and_eq_true] at hrl
                exact hrl.2
              have hn0 : nullableB i0 = nullableB j0 :=
                requal_nullable i0 j0 (hmx i0 (by simp)) (hmy j0 (by simp)) hq0
              have hih0 : requal (rderiv x i0) (rderiv x j0) = true := by
                refine ih i0 ?_ (hmx i0 (by simp)) j0 (hmy j0 (by simp)) hq0
                simp at hsz
                omega
              cases t with
              | nil => simp at hl2
              | cons s t2 =>
                cases u with
                | nil => simp at hl2y
                | cons v u2 =>
                  cases t2 with
                  | nil =>
                    cases u2 with
                    | cons w u3 => simp at hlen
                    | nil =>
                      have hqs : requal s v = true := by
                        simp only [reqList, Bool.and_eq_true] at hrt
                        exact hrt.1
                      have hihs : requal (rderiv x s) (rderiv x v) = true := by
                        refine ih s ?_ (hmx s (by simp)) v (hmy v (by simp)) hqs
                        simp at hsz
                        omega
                      simp only [rderiv]
                      rw [hn0]
                      by_cases hnl : nullableB j0 = true
                      · rw [if_pos hnl, if_pos hnl]
                        refine requal_sumMake
                          (nfB_prdMake (nfB_rderiv x i0 (hmx i0 (by simp)))
                            (hmx s (by simp)))
                          (nfB_prdMake (nfB_rderiv x j0 (hmy j0 (by simp)))
                            (hmy v (by simp)))
                          (nfB_rderiv x s (hmx s (by simp)))
                          (nfB_rderiv x v (hmy v (by simp)))
                          ?_ hihs
                        exact requal_prdMake
                          (nfB_rderiv x i0 (hmx i0 (by simp)))
                          (nfB_rderiv x j0 (hmy j0 (by simp)))
                          (hmx s (by simp)) (hmy v (by simp)) hih0 hqs
                      · rw [if_neg hnl, if_neg hnl]
                        exact requal_prdMake
                          (nfB_rderiv x i0 (hmx i0 (by simp)))
                          (nfB_rderiv x j0 (hmy j0 (by simp)))
                          (hmx s (by simp)) (hmy v (by simp)) hih0 hqs
                  | cons r3 t3 =>
                    cases u2 with
                    | nil => simp at hlen
                    | cons w u3 =>
                      have hntx : nfB (Rex.prd (s :: r3 :: t3)) = true := by
                        refine nfB_prd_of_parts (by simp) ?_ ?_
                        · intro z hz; exact htx z (List.mem_cons_of_mem _ hz)
                        · intro z hz; exact hmx z (List.mem_cons_of_mem _ hz)
                      have hnty : nfB (Rex.prd (v :: w :: u3)) = true := by
                        refine nfB_prd_of_parts (by simp) ?_ ?_
                        · intro z hz; exact hty z (List.mem_cons_of_mem _ hz)
                        · intro z hz; exact hmy z (List.mem_cons_of_mem _ hz)
                      have hqt : requal (Rex.prd (s :: r3 :: t3))
                          (Rex.prd (v :: w :: u3)) = true := by
                        simp only [requal, Bool.and_eq_true, decide_eq_true_iff]
                        exact ⟨by simpa using hlen, hrt⟩
                      have hiht : requal (rderiv x (Rex.prd (s :: r3 :: t3)))
                          (rderiv x (Rex.prd (v :: w :: u3))) = true := by
                        refine ih (Rex.prd (s :: r3 :: t3)) ?_ hntx _ hnty hqt
                        have h0 := sizeOf_rex_pos i0
                        simp at hsz ⊢
                        omega
                      simp only [rderiv]
                      rw [hn0]
                      by_cases hnl : nullableB j0 = true
                      · rw [if_pos hnl, if_pos hnl]
                        exact requal_sumMake
                          (nfB_prdMake (nfB_rderiv x i0 (hmx i0 (by simp))) hntx)
                          (nfB_prdMake (nfB_rderiv x j0 (hmy j0 (by simp))) hnty)
                          (nfB_rderiv x _ hntx) (nfB_rderiv x _ hnty)
                          (requal_prdMake (nfB_rderiv x i0 (hmx i0 (by simp)))
                            (nfB_rderiv x j0 (hmy j0 (by simp))) hntx hnty
                            hih0 hqt)
                          hiht
                      · rw [if_neg hnl, if_neg hnl]
                        exact requal_prdMake
                          (nfB_rderiv x i0 (hmx i0 (by simp)))
                          (nfB_rderiv x j0 (hmy j0 (by simp))) hntx hnty hih0 hqt
        | zer | one | lit c | sum l | and l | kst r => simp [requal] at hab
      | sum xs =>
        cases b with
        | sum ys =>
          simp only [requal, Bool.and_eq_true, decide_eq_true_iff] at hab
          obtain ⟨hlen, hincl⟩ := hab
          obtain ⟨-, -, hnd, hmem⟩ := nfB_sum_fields hna
          obtain ⟨-, -, hndy, hmemy⟩ := nfB_sum_fields hnb
          have hsym : ∀ u ∈ xs, ∀ v ∈ ys, requal u v = true →
              requal v u = true :=
            fun u hu v hv => requal_symm u v (hmem u hu) (hmemy v hv)
          have hfwd := rincl_iff.1 hincl
          have hbwd : ∀ v ∈ ys, rmem v xs = true :=
            rincl_exchange xs ys hnd hsym hfwd (by omega)
          have hih : ∀ u ∈ xs, ∀ v ∈ ys, requal u v = true →
              requal (rderiv x u) (rderiv x v) = true := by
            intro u hu v hv huv
            refine ih u ?_ (hmem u hu) v (hmemy v hv) huv
            have := List.sizeOf_lt_of_mem hu
            simp at hsz
            omega
          have hdx : ∀ u ∈ xs, nfB (rderiv x u) = true :=
            fun u hu => nfB_rderiv x u (hmem u hu)
          have hdy : ∀ v ∈ ys, nfB (rderiv x v) = true :=
            fun v hv => nfB_rderiv x v (hmemy v hv)
          have hdmx : ∀ d ∈ derivSet x xs ([] : List (Rex T)),
              nfB d = true := by
            intro d hd
            rcases derivSet_mem hd with h | ⟨u, hu, he, -⟩
            · simp at h
            · exact he ▸ hdx u hu
          have hdmy : ∀ d ∈ derivSet x ys ([] : List (Rex T)),
              nfB d = true := by
            intro d hd
            rcases derivSet_mem hd with h | ⟨v, hv, he, -⟩
            · simp at h
            · exact he ▸ hdy v hv
          have hX : ∀ z, rmem z (melems (rderiv x (Rex.sum xs))) = true ↔
              ∃ d ∈ derivSet x xs ([] : List (Rex T)),
                rmem z (melems d) = true := by
            intro z
            simp only [rderiv]
            rcases hD : derivSet x xs ([] : List (Rex T)) with
              _ | ⟨d1, _ | ⟨d2, rest⟩⟩
            · simp [melems, rmem]
            · simp
            · show rmem z
                (melems (List.foldl sumMake Rex.zer (d1 :: d2 :: rest))) =
                  true ↔ _
              rw [rmem_melems_foldSumMake (by simp [nfB])
                fun e he => hdmx e (by rw [hD]; exact he)]
              simp [melems, rmem]
          have hY : ∀ z, rmem z (melems (rderiv x (Rex.sum ys))) = true ↔
              ∃ d ∈ derivSet x ys ([] : List (Rex T)),
                rmem z (melems d) = true := by
            intro z
            simp only [rderiv]
            rcases hD : derivSet x ys ([] : List (Rex T)) with
              _ | ⟨d1, _ | ⟨d2, rest⟩⟩
            · simp [melems, rmem]
            · simp
            · show rmem z
                (melems (List.foldl sumMake Rex.zer (d1 :: d2 :: rest))) =
                  true ↔ _
              rw [rmem_melems_foldSumMake (by simp [nfB])
                fun e he => hdmy e (by rw [hD]; exact he)]
              simp [melems, rmem]
          refine requal_of_melems_iff (nfB_rderiv x _ hna) (nfB_rderiv x _ hnb)
            ?_
          intro z
          rw [hX z, hY z]
          constructor
          · rintro ⟨d, hd, hz⟩
            rcases derivSet_mem hd with h | ⟨u, hu, rfl, hne⟩
            · simp at h
            · obtain ⟨v, hv, huv⟩ := rmem_iff.1 (hfwd u hu)
              have hq := hih u hu v hv huv
              have hne2 : rtype (rderiv x v) ≠ 1 := by
                rw [← requal_rtype hq]; exact hne
              have hz2 : rmem z (melems (rderiv x v)) = true :=
                rmem_melems_of_requal hq hz
              obtain ⟨w, hw, hvw⟩ := rmem_iff.1 (derivSet_covers hv hne2)
              exact ⟨w, hw, rmem_melems_of_requal hvw hz2⟩
          · rintro ⟨d, hd, hz⟩
            rcases derivSet_mem hd with h | ⟨v, hv, rfl, hne⟩
            · simp at h
            · obtain ⟨u, hu, hvu⟩ := rmem_iff.1 (hbwd v hv)
              have huv := requal_symm v u (hmemy v hv) (hmem u hu) hvu
              have hq := hih u hu v hv huv
              have hq2 := requal_symm _ _ (hdx u hu) (hdy v hv) hq
              have hne2 : rtype (rderiv x u) ≠ 1 := by
                rw [requal_rtype hq]; exact hne
              have hz2 : rmem z (melems (rderiv x u)) = true :=
                rmem_melems_of_requal hq2 hz
              obtain ⟨w, hw, huw⟩ := rmem_iff.1 (derivSet_covers hu hne2)
              exact ⟨w, hw, rmem_melems_of_requal huw hz2⟩
        | zer | one | lit c | and l | prd l | kst r => simp [requal] at hab
      | and xs =>
        cases b with
        | and ys =>
          simp only [requal, Bool.and_eq_true, decide_eq_true_iff] at hab
          obtain ⟨hlen, hincl⟩ := hab
          obtain ⟨-, -, hnd, hmem⟩ := nfB_and_fields hna
          obtain ⟨-, -, hndy, hmemy⟩ := nfB_and_fields hnb
          have hsym : ∀ u ∈ xs, ∀ v ∈ ys, requal u v = true →
              requal v u = true :=
            fun u hu v hv => requal_symm u v (hmem u hu) (hmemy v hv)
          have hfwd := rincl_iff.1 hincl
          have hbwd : ∀ v ∈ ys, rmem v xs = true :=
            rincl_exchange xs ys hnd hsym hfwd (by omega)
          have hih : ∀ u ∈ xs, ∀ v ∈ ys, requal u v = true →
              requal (rderiv x u) (rderiv x v) = true := by
            intro u hu v hv huv
            refine ih u ?_ (hmem u hu) v (hmemy v hv) huv
            have := List.sizeOf_lt_of_mem hu
            simp at hsz
            omega
          have hdx : ∀ u ∈ xs, nfB (rderiv x u) = true :=
            fun u hu => nfB_rderiv x u (hmem u hu)
          have hdy : ∀ v ∈ ys, nfB (rderiv x v) = true :=
            fun v hv => nfB_rderiv x v (hmemy v hv)
          simp only [rderiv]
          rcases hDX : derivAnd x xs ([] : List (Rex T)) with _ | DX
          · rcases hDY : derivAnd x ys ([] : List (Rex T)) with _ | DY
            · exact requal_refl _
            · obtain ⟨u, hu, hz⟩ := derivAnd_eq_none.1 hDX
              obtain ⟨v, hv, huv⟩ := rmem_iff.1 (hfwd u hu)
              have hq := hih u hu v hv huv
              have hz2 : rtype (rderiv x v) = 1 := by
                rw [← requal_rtype hq]; exact hz
              have hnone : derivAnd x ys ([] : List (Rex T)) = none :=
                derivAnd_eq_none.2 ⟨v, hv, hz2⟩
              rw [hDY] at hnone
              cases hnone
          · rcases hDY : derivAnd x ys ([] : List (Rex T)) with _ | DY
            · obtain ⟨v, hv, hz⟩ := derivAnd_eq_none.1 hDY
              obtain ⟨u, hu, hvu⟩ := rmem_iff.1 (hbwd v hv)
              have huv := requal_symm v u (hmemy v hv) (hmem u hu) hvu
              have hq := hih u hu v hv huv
              have hz2 : rtype (rderiv x u) = 1 := by
                rw [requal_rtype hq]; exact hz
              have hnone : derivAnd x xs ([] : List (Rex T)) = none :=
                derivAnd_eq_none.2 ⟨u, hu, hz2⟩
              rw [hDX] at hnone
              cases hnone
            · have hdX : ∀ z ∈ DX, nfB z = true := by
                intro z hz
                rcases derivAnd_mem hDX hz with h | ⟨u, hu, he, -⟩
                · simp at h
                · exact he ▸ hdx u hu
              have hdY : ∀ z ∈ DY, nfB z = true := by
                intro z hz
                rcases derivAnd_mem hDY hz with h | ⟨v, hv, he, -⟩
                · simp at h
                · exact he ▸ hdy v hv
              have hIXY : ∀ z ∈ DX, rmem z DY = true := by
                intro z hz
                rcases derivAnd_mem hDX hz with h | ⟨u, hu, rfl, -⟩
                · simp at h
                · obtain ⟨v, hv, huv⟩ := rmem_iff.1 (hfwd u hu)
                  have hq := hih u hu v hv huv
                  obtain ⟨w, hw, hvw⟩ := rmem_iff.1 (derivAnd_covers hDY hv)
                  exact rmem_iff.2 ⟨w, hw, requal_trans _ _ _ hq hvw⟩
              have hIYX : ∀ z ∈ DY, rmem z DX = true := by
                intro z hz
                rcases derivAnd_mem hDY hz with h | ⟨v, hv, rfl, -⟩
                · simp at h
                · obtain ⟨u, hu, hvu⟩ := rmem_iff.1 (hbwd v hv)
                  have huv := requal_symm v u (hmemy v hv) (hmem u hu) hvu
                  have hq := hih u hu v hv huv
                  have hq2 := requal_symm _ _ (hdx u hu) (hdy v hv) hq
                  obtain ⟨w, hw, huw⟩ := rmem_iff.1 (derivAnd_covers hDX hu)
                  exact rmem_iff.2 ⟨w, hw, requal_trans _ _ _ hq2 huw⟩
              have hndX : nodupR DX = true :=
                derivAnd_nodup hDX (by simp) (by simp [nodupR]) hdx
              have hndY : nodupR DY = true :=
                derivAnd_nodup hDY (by simp) (by simp [nodupR]) hdy
              have hsymD : ∀ z ∈ DX, ∀ w ∈ DY, requal z w = true →
                  requal w z = true :=
                fun z hz w hw => requal_symm z w (hdX z hz) (hdY w hw)
              have hsymD2 : ∀ w ∈ DY, ∀ z ∈ DX, requal w z = true →
                  requal z w = true :=
                fun w hw z hz => requal_symm w z (hdY w hw) (hdX z hz)
              have hlenD : DX.length = DY.length :=
                le_antisymm (rincl_length_le DX DY hndX hsymD hIXY)
                  (rincl_length_le DY DX hndY hsymD2 hIYX)
              match DX, DY, hlenD, hIXY with
              | [], [], _, _ => exact requal_refl _
              | [z], [w], _, hI =>
                have hzw : requal z w = true := by
                  simpa [rmem] using hI z (by simp)
                exact hzw
              | z1 :: z2 :: zr, w1 :: w2 :: wr, hlenD, hI =>
                show requal (Rex.and (z1 :: z2 :: zr))
                  (Rex.and (w1 :: w2 :: wr)) = true
                simp only [requal, Bool.and_eq_true, decide_eq_true_iff]
                exact ⟨by simpa using hlenD, rincl_iff.2 fun z hz => hI z hz⟩
              | [], _ :: _, h, _ => simp at h
              | _ :: _, [], h, _ => simp at h
              | [_], _ :: _ :: _, h, _ => simp at h
              | _ :: _ :: _, [_], h, _ => simp at h
        | zer | one | lit c | sum l | prd l | kst r => simp [requal] at hab
  intro a hna b hnb hab
  exact key (sizeOf a) a le_rfl hna b hnb hab

theorem alookup_mem {α β : Type} [DecidableEq α] {k : α} {v : β} :
    ∀ {l : List (α × β)}, alookup k l = some v → (k, v) ∈ l := by
  intro l
  induction l with
  | nil => intro h; simp [alookup] at h
  | cons p t ih =>
    intro h
    unfold alookup at h
    by_cases hk : k = p.1
    · rw [if_pos hk] at h
      cases h
      exact List.mem_cons.2 (Or.inl (by rw [hk]))
    · rw [if_neg hk] at h
      exact List.mem_cons.2 (Or.inr (ih h))

theorem getD_mem {α : Type} {l : List α} {i : ℕ} {d : α} (h : i < l.length) :
    l.getD i d ∈ l := by
  induction l generalizing i with
  | nil => simp at h
  | cons a t ih =>
    cases i with
    | zero => simp [List.getD]
    | succ j =>
      simp only [List.getD_cons_succ]
      exact List.mem_cons.2 (Or.inr (ih (by simpa using h)))

theorem pick_mem {α : Type} {d : α} {l : List α} (h : l ≠ []) (n : ℕ) :
    pick d l n ∈ l := by
  unfold pick
  refine getD_mem ?_
  by_cases h2 : 1 < l.length
  · simp only [h2, if_true]
    exact Nat.mod_lt _ (by omega)
  · simp only [h2, if_false]
    cases l with
    | nil => exact absurd rfl h
    | cons a t => simp

theorem sampleStep_done {F : Fsm T} {o : ℕ → ℕ} {q k : ℕ} {acc w : List T}
    (h : sampleStep F o q k acc = .done w) : w = acc ∧ q ∈ F.finals := by
  unfold sampleStep at h
  split at h
  · rename_i hc
    cases h
    exact ⟨rfl, hc.1⟩
  · repeat' split at h
    all_goals cases h
    all_goals exact ⟨rfl, by assumption⟩

theorem sampleStep_next {F : Fsm T} {o : ℕ → ℕ} {q k : ℕ} {acc : List T}
    {q1 k1 : ℕ} {acc1 : List T}
    (h : sampleStep F o q k acc = .next q1 k1 acc1) :
    ∃ eppv li l, alookup (q, q1) F.transLetters = some eppv ∧
      (∃ b ∈ eppv, li ∈ b) ∧ F.alphabet.get? li = some l ∧
      acc1 = acc ++ [l] := by
  unfold sampleStep at h
  split at h
  · cases h
  · split at h
    · split at h <;> cases h
    · split at h <;> cases h
    · rename_i q1h q1t hss
      split at h
      · split at h <;> cases h
      · split at h <;> cases h
      · rename_i bh bt htl
        split at h
        · cases h
        · rename_i lth ltt hlts
          split at h
          · cases h
          · rename_i l hget
            cases h
            refine ⟨bh :: bt, _, l, htl, ⟨lth :: ltt, ?_, ?_⟩, hget, rfl⟩
            · rw [← hlts]
              exact pick_mem (by simp) _
            · exact pick_mem (by simp) _

theorem derivWord_append {r : Rex T} {w : List T} {l : T} :
    derivWord r (w ++ [l]) = rderiv l (derivWord r w) := by
  simp [derivWord, List.foldl_append]

/-- Soundness of the sampling loop against a regex labelling of the
states, up to the structural equality `requal` under which the
constructor identifies states: if every recorded transition's target
label is `requal` to the derivative of its source's label by the
transition letter, every accepting state carries a nullable regex, and
the sampling letter maps are consistent with the matching map, then a
produced word is matched by the label of the walk's origin. -/
theorem sampleLoop_sound {F : Fsm T} {r : Rex T} {ρ : ℕ → Rex T} {o : ℕ → ℕ}
    (hwf : ∀ q, nfB (ρ q) = true) (hnr : nfB r = true)
    (hcons : ∀ e ∈ F.transLetters, ∀ b ∈ e.2, ∀ li ∈ b,
      alookup (e.1.1, li) F.transState = some e.1.2)
    (hderiv : ∀ e ∈ F.transState, ∀ l, F.alphabet.get? e.1.2 = some l →
      requal (rderiv l (ρ e.1.1)) (ρ e.2) = true)
    (hfin : ∀ q ∈ F.finals, nullableB (ρ q) = true) :
    ∀ (fuel q k : ℕ) (acc w : List T), requal (derivWord r acc) (ρ q) = true →
      sampleLoop F o fuel q k acc = .ok w → rmatch r w = true := by
  intro fuel
  induction fuel with
  | zero => intro q k acc w _ h; simp [sampleLoop] at h
  | succ n ih =>
    intro q k acc w hq h
    unfold sampleLoop at h
    split at h
    · rename_i w2 hstep
      cases h
      obtain ⟨rfl, hqf⟩ := sampleStep_done hstep
      rw [rmatch_eq_nullable,
        requal_nullable _ (ρ q) (nfB_derivWord hnr) (hwf q) hq]
      exact hfin q hqf
    · cases h
    · cases h
    · rename_i q1 k1 acc1 hstep
      obtain ⟨eppv, li, l, htl, ⟨b, hb, hlib⟩, hget, rfl⟩ := sampleStep_next hstep
      have hts : alookup (q, li) F.transState = some q1 :=
        hcons ((q, q1), eppv) (alookup_mem htl) b hb li hlib
      have hq1 : requal (rderiv l (ρ q)) (ρ q1) = true :=
        hderiv ((q, li), q1) (alookup_mem hts) l hget
      refine ih q1 k1 (acc ++ [l]) w ?_ h
      rw [derivWord_append]
      exact requal_trans _ _ _
        (requal_rderiv l (derivWord r acc) (nfB_derivWord hnr) (ρ q) (hwf q) hq)
        hq1

/-- C5: for every DFA whose states carry regexes as built by iterated
derivatives (every label in normal form, state 1 carrying the
originating regex `r`, every recorded transition's target label
`requal` to the derivative of its source's label by the transition
letter — the identification under which the constructor collapses
states — every accepting state carrying a nullable regex, and the
sampling letter maps consistent with the matching map, as the `Fsm`
constructor guarantees), every word returned by `sample()` — for every
outcome of its internal random choices — satisfies `match(r, w) =
true` on the originating regex. -/
theorem c5_sample_matches (F : Fsm T) (r : Rex T) (ρ : ℕ → Rex T)
    (o : ℕ → ℕ) (fuel : ℕ) (w : List T)
    (hwf : ∀ q, nfB (ρ q) = true)
    (hstart : ρ 1 = r)
    (hcons : ∀ e ∈ F.transLetters, ∀ b ∈ e.2, ∀ li ∈ b,
      alookup (e.1.1, li) F.transState = some e.1.2)
    (hderiv : ∀ e ∈ F.transState, ∀ l, F.alphabet.get? e.1.2 = some l →
      requal (rderiv l (ρ e.1.1)) (ρ e.2) = true)
    (hfin : ∀ q ∈ F.finals, nullableB (ρ q) = true)
    (h : sample F o fuel = .ok w) :
    rmatch r w = true :=
  sampleLoop_sound hwf (hstart ▸ hwf 1) hcons hderiv hfin fuel 1 0 [] w
    (by rw [hstart]; exact requal_refl r) h

/-- C10: `sample()` terminates normally at an accepting state with no
outgoing transitions, returning the word accumulated so far, even when
the stop/continue coin chose to continue; and the fatal dangling-state
error arises only at a non-accepting state whose successor list or
whose chosen transition's letter buckets are missing or empty. -/
theorem c10_sample_accepting_dangling :
    (∀ (F : Fsm T) (o : ℕ → ℕ) (q k : ℕ) (acc : List T),
        q ∈ F.finals →
        (alookup q F.stateStates = none ∨ alookup q F.stateStates = some []) →
        sampleStep F o q k acc = .done acc) ∧
    (∀ (F : Fsm T) (o : ℕ → ℕ) (q k : ℕ) (acc : List T),
        sampleStep F o q k acc = .failure →
        q ∉ F.finals ∧
          ((alookup q F.stateStates = none ∨ alookup q F.stateStates = some []) ∨
            ∃ q1, alookup (q, q1) F.transLetters = none ∨
              alookup (q, q1) F.transLetters = some [])) := by
  constructor
  · intro F o q k acc hq hss
    unfold sampleStep
    by_cases hc : q ∈ F.finals ∧ o k % 2 = 0
    · rw [if_pos hc]
    · rw [if_neg hc]
      rcases hss with h | h <;> rw [h] <;> simp [hq]
  · intro F o q k acc h
    unfold sampleStep at h
    split at h
    · cases h
    · split at h
      · rename_i hss
        split at h
        · cases h
        · rename_i hqf
          exact ⟨hqf, Or.inl (Or.inl hss)⟩
      · rename_i hss
        split at h
        · cases h
        · rename_i hqf
          exact ⟨hqf, Or.inl (Or.inr hss)⟩
      · rename_i q1h q1t hss
        split at h
        · rename_i htl
          split at h
          · cases h
          · rename_i hqf
            exact ⟨hqf, Or.inr ⟨pick 0 (q1h :: q1t) (o (k + 1)), Or.inl htl⟩⟩
        · rename_i htl
          split at h
          · cases h
          · rename_i hqf
            exact ⟨hqf, Or.inr ⟨pick 0 (q1h :: q1t) (o (k + 1)), Or.inr htl⟩⟩
        · split at h
          · cases h
          · split at h <;> cases h

/-- C8: accepting states are inserted into `finals_` only as targets
of transitions during `build`, so for a nullable start regex whose
derivatives never lead back to it — here `One + Lit 1` — state 1 is
absent from the accepting set and the built DFA rejects the empty word
even though the regex matches it. -/
theorem c8_start_state_not_accepting :
    ∃ r0 : Rex ℕ, rmatch r0 [] = true ∧
      1 ∉ (buildDfa r0 5).finals ∧
      bmatch (alphabetOf r0) (buildDfa r0 5) [] = false := by
  refine ⟨.sum [.one, .lit 1], ?_, ?_, ?_⟩
  · simp [rmatch, derivWord, nu, nullableB, anyNullable, requal]
  · simp [buildDfa, buildFrom, buildList, alphabetOf, litsOf, litsOfList,
      rderiv, derivSet, sinsert, rmem, requal, rtype, rlookup, nu, nullableB,
      anyNullable, insertNat, enumIdx, rincl, reqList]
  · simp [buildDfa, buildFrom, buildList, alphabetOf, litsOf, litsOfList,
      rderiv, derivSet, sinsert, rmem, requal, rtype, rlookup, nu, nullableB,
      anyNullable, insertNat, enumIdx, rincl, reqList, bmatch, bmatchFrom]

theorem c5_sample_matches_witness :
    sample fsmCollapse (fun _ => 1) 3 = .ok [20, 2] ∧
      rmatch rexCollapse [20, 2] = true := by
  have hrun : sample fsmCollapse (fun _ => 1) 3 = .ok [20, 2] := by
    simp [sample, sampleLoop, sampleStep, pick, alookup, fsmCollapse,
      List.getD]
  refine ⟨hrun, ?_⟩
  refine c5_sample_matches fsmCollapse rexCollapse labelCollapse
    (fun _ => 1) 3 [20, 2] ?_ (by simp [labelCollapse]) ?_ ?_ ?_ hrun
  · intro q
    unfold labelCollapse
    split
    · simp [rexCollapse, nfB, nfList, noTypes, nodupR, rmem, requal, rincl,
        reqList, rtype]
    split
    · simp [nfB, nfList, noTypes, nodupR, rmem, requal, rtype]
    split
    · simp [nfB]
    · simp [nfB]
  · intro e he b hb li hli
    simp only [fsmCollapse, List.mem_cons, List.not_mem_nil, or_false] at he
    rcases he with rfl | rfl <;>
      simp only [List.mem_cons, List.not_mem_nil, or_false] at hb <;>
      rcases hb with rfl | rfl <;>
      simp only [List.mem_cons, List.not_mem_nil, or_false] at hli <;>
      subst hli <;>
      simp [alookup]
  · intro e he l hget
    simp only [fsmCollapse, List.mem_cons, List.not_mem_nil, or_false] at he
    rcases he with rfl | rfl | rfl | rfl <;>
      simp only [fsmCollapse, List.get?] at hget <;>
      cases hget <;>
      simp [labelCollapse, rexCollapse, rderiv, derivSet, derivAnd, sinsert,
        sinsertAll, rmem, requal, rincl, reqList, rtype, nullableB,
        anyNullable, allNullable, sumMake, prdMake, kstMake]
  · intro q hq
    simp only [fsmCollapse, List.mem_cons, List.not_mem_nil, or_false] at hq
    subst hq
    simp [labelCollapse, nullableB]


theorem c10_sample_witness :
    sampleStep fsmStuck (fun _ => 1) 1 0 [] = .done ([] : List ℕ) :=
  c10_sample_accepting_dangling.1 fsmStuck (fun _ => 1) 1 0 []
    (by simp [fsmStuck]) (Or.inl (by simp [fsmStuck, alookup]))

theorem c9_sumMake_witness :
    requal (sumMake (sumMake (Rex.lit (1 : ℕ)) (Rex.lit 2)) (Rex.lit 3))
        (sumMake (Rex.lit 1) (sumMake (Rex.lit 2) (Rex.lit 3))) = true ∧
      requal (sumMake (sumMake (Rex.lit (1 : ℕ)) (Rex.lit 2)) (Rex.lit 3))
        (sumMake (Rex.lit 3) (sumMake (Rex.lit 1) (Rex.lit 2))) = true ∧
      requal (sumMake (Rex.lit (1 : ℕ)) (sumMake (Rex.lit 2) (Rex.lit 3)))
        (sumMake (Rex.lit 3) (sumMake (Rex.lit 1) (Rex.lit 2))) = true :=
  c9_sumMake_assoc_orderless (Rex.lit 1) (Rex.lit 2) (Rex.lit 3)
    (by simp [normB]) (by simp [normB]) (by simp [normB])

theorem staffingDelta_closed_form (stf trg prev mutd : ℕ → ℚ) (slot0 n : ℕ) :
    staffingDelta stf trg slot0 n prev mutd =
      (1 / (n : ℚ)) * ∑ i in Finset.range n,
        (mutd i - prev i) *
          ((mutd i - prev i) + 2 * (stf (slot0 + i) - trg (slot0 + i))) := by
  unfold staffingDelta
  rw [mul_comm (1 / (n : ℚ)), mul_one_div]
  congr 1
  exact Finset.sum_congr rfl fun i _ => by ring

theorem staffingDelta_energy_diff (stf trg prev mutd : ℕ → ℚ) (slot0 n : ℕ) :
    staffingDelta stf trg slot0 n prev mutd =
      staffingEnergy (staffingAfter stf slot0 n prev mutd) trg slot0 n -
        staffingEnergy stf trg slot0 n := by
  unfold staffingDelta staffingEnergy
  rw [div_sub_div_same]
  congr 1
  rw [← Finset.sum_sub_distrib]
  refine Finset.sum_congr rfl fun i hi => ?_
  have hmem : i < n := Finset.mem_range.1 hi
  unfold staffingAfter
  rw [if_pos ⟨Nat.le_add_right _ _, by omega⟩]
  have h2 : slot0 + i - slot0 = i := by omega
  rw [h2]
  ring

/-- C3: `staffing_energy::delta(prev_stf, mutd_stf)` equals the closed
form `(1/n)·Σ Δᵢ·(Δᵢ + 2·(staffing[slot0+i] − target[slot0+i]))` with
`Δᵢ = mutd[i] − prev[i]` and `n = weekSlots`, and equals the energy
after adding `mutd − prev` slotwise over the week window minus the
energy before — an exact identity of field arithmetic, for every week
and offset. -/
theorem c3_staffing_delta_exact (stf trg prev mutd : ℕ → ℚ)
    (week offset : ℕ) :
    staffingDelta stf trg (week * 7 * SLOTS_DAY) (7 * SLOTS_DAY + offset)
        prev mutd =
      (1 / ((7 * SLOTS_DAY + offset : ℕ) : ℚ)) *
        ∑ i in Finset.range (7 * SLOTS_DAY + offset),
          (mutd i - prev i) *
            ((mutd i - prev i) +
              2 * (stf (week * 7 * SLOTS_DAY + i) -
                trg (week * 7 * SLOTS_DAY + i))) ∧
    staffingDelta stf trg (week * 7 * SLOTS_DAY) (7 * SLOTS_DAY + offset)
        prev mutd =
      staffingEnergy
          (staffingAfter stf (week * 7 * SLOTS_DAY) (7 * SLOTS_DAY + offset)
            prev mutd)
          trg (week * 7 * SLOTS_DAY) (7 * SLOTS_DAY + offset) -
        staffingEnergy stf trg (week * 7 * SLOTS_DAY)
          (7 * SLOTS_DAY + offset) :=
  ⟨staffingDelta_closed_form stf trg prev mutd _ _,
    staffingDelta_energy_diff stf trg prev mutd _ _⟩

theorem upsample_length {ratio : ℕ} {l : List ℚ} :
    (upsample ratio l).length = l.length * ratio := by
  induction l with
  | nil => simp [upsample]
  | cons t ts ih => simp [upsample, ih]; ring

/-- C4 counterexample: with every trial accepted and `nover/50 = 9`
trials per round, the very first `t0 = 2.0` already meets the bound
(`χ = 9/10 ≥ 0.9`), yet `calibrateTi` returns `4.0` — the doubling is
applied after the measurement and before the loop exit. -/
theorem c4_calibrateTi_counterexample :
    calibrateTi (fun _ _ => true) 9 5 = some 4 ∧ (4 : ℚ) ≠ 2 := by
  constructor
  · have h : ¬ calibChi (fun _ _ => true) 9 0 < 9 / 10 := by
      unfold calibChi
      norm_num [List.range_succ]
    unfold calibrateTi calibrateTiGo
    rw [if_neg h]
    norm_num
  · norm_num

theorem calibrateTiGo_first_bound (accept : ℕ → ℕ → Bool) (m k0 : ℕ)
    (hk0 : 9 / 10 ≤ calibChi accept m k0)
    (hmin : ∀ j < k0, calibChi accept m j < 9 / 10) :
    ∀ (d k : ℕ) (t0 : ℚ), k ≤ k0 → k0 - k < d →
      calibrateTiGo accept m d k t0 = some (2 ^ (k0 - k + 1) * t0) := by
  intro d
  induction d with
  | zero => intro k t0 _ h; exact absurd h (by omega)
  | succ n ih =>
    intro k t0 hk hlt
    unfold calibrateTiGo
    by_cases hkk : k = k0
    · subst hkk
      rw [if_neg (not_lt.2 hk0)]
      norm_num
    · have hklt : k < k0 := by omega
      rw [if_pos (hmin k hklt), ih (k + 1) (2 * t0) (by omega) (by omega)]
      congr 1
      have h2 : k0 - k + 1 = (k0 - (k + 1) + 1) + 1 := by omega
      rw [h2, pow_succ]
      ring

/-- C4 amended: `calibrateTi` starts from `t0 = 2.0` and doubles while
the measured ratio is below `0.9`, but it returns twice the first `t0`
meeting the bound (the doubling happens after each measurement and
before the loop condition is re-tested): if round `k0` is the first
whose ratio reaches `0.9`, the returned value is `2^(k0+2)`, not the
bound-meeting `2^(k0+1)`. -/
theorem c4_calibrateTi_returns_doubled (accept : ℕ → ℕ → Bool)
    (m fuel k0 : ℕ)
    (hk0 : 9 / 10 ≤ calibChi accept m k0)
    (hmin : ∀ j < k0, calibChi accept m j < 9 / 10)
    (hfuel : k0 < fuel) :
    calibrateTi accept m fuel = some (2 ^ (k0 + 2)) := by
  unfold calibrateTi
  rw [calibrateTiGo_first_bound accept m k0 hk0 hmin fuel 0 2 (by omega)
    (by omega)]
  congr 1
  rw [Nat.sub_zero, pow_succ, pow_succ]
  ring

theorem c4_calibrateTi_witness :
    calibrateTi (fun k _ => decide (1 ≤ k)) 9 5 = some (2 ^ (1 + 2)) := by
  refine c4_calibrateTi_returns_doubled (fun k _ => decide (1 ≤ k)) 9 5 1
    ?_ ?_ (by norm_num)
  · unfold calibChi
    norm_num [List.range_succ]
  · intro j hj
    interval_cases j
    unfold calibChi
    norm_num [List.range_succ]

/-- C6: `anneal(ti, tf, delta_t)` validates its arguments before
touching the state: it raises InvalidArgument exactly when `ti ≤ 0`,
`tf ≤ 0`, `ti ≤ tf` or `delta_t ∉ [0, 1)`, performing no state
operation at all in that case (empty trace); with valid arguments it
returns normally. -/
theorem c6_anneal_guards (ti tf dt : ℚ) (steps nover : ℕ)
    (accept : ℕ → Bool) :
    ((anneal ti tf dt steps nover accept).1 = .ok () ↔
      0 < ti ∧ 0 < tf ∧ tf < ti ∧ 0 ≤ dt ∧ dt < 1) ∧
    ((∃ e, (anneal ti tf dt steps nover accept).1 = .error e) ↔
      ti ≤ 0 ∨ tf ≤ 0 ∨ ti ≤ tf ∨ dt < 0 ∨ 1 ≤ dt) ∧
    (∀ e, (anneal ti tf dt steps nover accept).1 = .error e →
      (anneal ti tf dt steps nover accept).2 = []) := by
  unfold anneal
  by_cases h1 : ti ≤ 0
  · rw [if_pos h1]
    exact ⟨⟨fun h => by simp at h, fun hv => absurd hv.1 (not_lt.2 h1)⟩,
      ⟨fun _ => Or.inl h1, fun _ => ⟨"ti > 0", rfl⟩⟩, fun e _ => rfl⟩
  rw [if_neg h1]
  by_cases h2 : tf ≤ 0
  · rw [if_pos h2]
    exact ⟨⟨fun h => by simp at h, fun hv => absurd hv.2.1 (not_lt.2 h2)⟩,
      ⟨fun _ => Or.inr (Or.inl h2), fun _ => ⟨"tf > 0", rfl⟩⟩, fun e _ => rfl⟩
  rw [if_neg h2]
  by_cases h3 : ti ≤ tf
  · rw [if_pos h3]
    exact ⟨⟨fun h => by simp at h, fun hv => absurd hv.2.2.1 (not_lt.2 h3)⟩,
      ⟨fun _ => Or.inr (Or.inr (Or.inl h3)), fun _ => ⟨"ti > tf", rfl⟩⟩,
      fun e _ => rfl⟩
  rw [if_neg h3]
  by_cases h4 : 1 ≤ dt ∨ dt < 0
  · rw [if_pos h4]
    refine ⟨⟨fun h => by simp at h, fun hv => ?_⟩,
      ⟨fun _ => ?_, fun _ => ⟨"0 < delta_t < 1", rfl⟩⟩, fun e _ => rfl⟩
    · rcases h4 with h4 | h4
      · exact absurd hv.2.2.2.2 (not_lt.2 h4)
      · exact absurd hv.2.2.2.1 (not_le.2 h4)
    · rcases h4 with h4 | h4
      · exact Or.inr (Or.inr (Or.inr (Or.inr h4)))
      · exact Or.inr (Or.inr (Or.inr (Or.inl h4)))
  rw [if_neg h4]
  push_neg at h4
  refine ⟨⟨fun _ => ⟨not_le.1 h1, not_le.1 h2, not_le.1 h3, h4.2, h4.1⟩,
    fun _ => rfl⟩, ⟨fun he => ?_, fun hd => ?_⟩, fun e he => by simp at he⟩
  · obtain ⟨e, he⟩ := he
    simp at he
  · rcases hd with hd | hd | hd | hd | hd
    · exact absurd hd h1
    · exact absurd hd h2
    · exact absurd hd h3
    · exact absurd hd (not_lt.2 h4.2)
    · exact absurd hd (not_le.2 h4.1)

theorem c6_anneal_guards_witness :
    (anneal 0 1 (1 / 2) 5 100 (fun _ => true)).1 = .error "ti > 0" ∧
      (anneal 0 1 (1 / 2) 5 100 (fun _ => true)).2 = [] := by
  have he : (anneal 0 1 (1 / 2) 5 100 (fun _ => true)).1 = .error "ti > 0" := by
    unfold anneal
    norm_num
  exact ⟨he,
    (c6_anneal_guards 0 1 (1 / 2) 5 100 (fun _ => true)).2.2 "ti > 0" he⟩

/-- C7 amended: a valid `Target` construction stores the input
upsampled by repetition to 5-minute resolution and zero-padded so that
its length is the least multiple of 288 *strictly greater* than the
upsampled length (the loop always appends `288 − size % 288 ≥ 1`
zeros); in particular an input of exactly `days·(24·60/slot_length)`
points yields `(days·288/…) + 288`, one full day more than the claim's
`days·288` when the upsampled length is already a multiple of 288. -/
theorem c7_target_padding_next_day (slot_length days : ℕ) (target : List ℚ)
    (h5 : 5 ≤ slot_length) (hm : slot_length % 5 = 0)
    (hlen : days * (24 * 60 / slot_length) ≤ target.length) :
    ∃ c, targetInit slot_length days target = .ok c ∧
      c.length = target.length * (slot_length / 5) +
        (288 - target.length * (slot_length / 5) % 288) ∧
      c.length = 288 * (target.length * (slot_length / 5) / 288 + 1) := by
  unfold targetInit
  rw [if_neg (by omega), if_neg (by simp [hm]), if_neg (by omega)]
  refine ⟨_, rfl, ?_, ?_⟩
  · simp only [List.length_append, List.length_replicate, upsample_length,
      SLOTS_DAY, SLOT_LENGTH]
  · simp only [List.length_append, List.length_replicate, upsample_length,
      SLOTS_DAY, SLOT_LENGTH]
    omega

theorem c7_target_padding_witness :
    ∃ c, targetInit 10 1 (List.replicate 144 (1 : ℚ)) = .ok c ∧
      c.length = (List.replicate 144 (1 : ℚ)).length * (10 / 5) +
        (288 - (List.replicate 144 (1 : ℚ)).length * (10 / 5) % 288) ∧
      c.length = 288 *
        ((List.replicate 144 (1 : ℚ)).length * (10 / 5) / 288 + 1) :=
  c7_target_padding_next_day 10 1 (List.replicate 144 (1 : ℚ))
    (by norm_num) (by norm_num) (by simp)

/-- C1 at the failing input: `updatePlan(0, 0, line)` on a two-agent,
seven-day plan writes only days 0 and 1 — the loop bound
`day + i < plan_.size()` compares against the number of agents (2),
not the plan length in days (7) — so day 2 keeps its old rest shift
although `line[2]` is a working shift. -/
theorem c1_updatePlan_clipped_by_agent_count :
    (updatePlan c1plan 0 0 c1line).map
        (fun p => ((p.rows.getD 0 []).getD 1 restShift,
          (p.rows.getD 0 []).getD 2 restShift)) =
      .ok (⟨"B", [(0, 5)]⟩, restShift) ∧
    c1line.getD 2 restShift = ⟨"C", [(0, 5)]⟩ ∧
    (⟨"C", [(0, 5)]⟩ : Shift) ≠ restShift := by
  refine ⟨rfl, rfl, by decide⟩

theorem getD_replicate_self {α : Type} {a : α} {n d : ℕ} :
    (List.replicate n a).getD d a = a := by
  rcases lt_or_ge d n with h | h
  · have h1 : d < (List.replicate n a).length := by simpa using h
    rw [List.getD_eq_getElem _ _ h1]
    exact List.getElem_replicate _ h1
  · have h2 : (List.replicate n a).length ≤ d := by simpa using h
    rw [List.getD_eq_default _ _ h2]

theorem getD_replicate0 {n j : ℕ} :
    (List.replicate n (0 : ℚ)).getD j 0 = 0 := getD_replicate_self

theorem getD_mapIdxQ {curve : List ℚ} {j : ℕ} (h : j < curve.length)
    {f : ℕ → ℚ → ℚ} :
    (curve.mapIdx f).getD j 0 = f j (curve.getD j 0) := by
  have h' : j < (curve.mapIdx f).length := by simpa using h
  rw [List.getD_eq_getElem _ _ h', List.getD_eq_getElem _ _ h]
  have hg := List.get_mapIdx curve f j h
  simpa using hg

theorem getD_addRange {curve : List ℚ} {j : ℕ} (h : j < curve.length)
    {i0 i1 : ℕ} {c : ℚ} :
    (addRange curve i0 i1 c).getD j 0 =
      if i0 ≤ j ∧ j < i1 then curve.getD j 0 + c else curve.getD j 0 := by
  unfold addRange
  rw [getD_mapIdxQ h]

theorem getD_addStaff_one {code : String} {a b day : ℕ} {c : ℚ}
    {curve : List ℚ} {j : ℕ} (h : j < curve.length) :
    (addStaff ⟨code, [(a, b)]⟩ day c curve).getD j 0 =
      if day * SLOTS_DAY + a / SLOT_LENGTH ≤ j ∧
          j < day * SLOTS_DAY + b / SLOT_LENGTH then
        curve.getD j 0 + c
      else curve.getD j 0 := by
  show (addRange curve (day * SLOTS_DAY + a / SLOT_LENGTH)
      (day * SLOTS_DAY + b / SLOT_LENGTH) c).getD j 0 = _
  rw [getD_addRange h]

theorem addStaff_rest {day : ℕ} {c : ℚ} {curve : List ℚ} :
    addStaff restShift day c curve = curve := rfl

theorem foldl_addStaff_rest {row : List Shift} {z : List ℚ} :
    ∀ {l : List ℕ}, (∀ d ∈ l, row.getD d restShift = restShift) →
      l.foldl (fun cur d => addStaff (row.getD d restShift) d 1 cur) z = z := by
  intro l
  induction l generalizing z with
  | nil => intro _; rfl
  | cons d ds ih =>
    intro hall
    show ds.foldl _ (addStaff (row.getD d restShift) d 1 z) = z
    rw [hall d (by simp), addStaff_rest]
    exact ih fun x hx => hall x (by simp [hx])

theorem staffingFromScratch_single_rest (staffing : List ℚ) (days offset : ℕ)
    (row : List Shift)
    (hrow : ∀ d ∈ List.range days, row.getD d restShift = restShift) :
    staffingFromScratch ⟨[row], staffing, days, offset⟩ =
      List.replicate staffing.length 0 := by
  show (List.range days).foldl
      (fun cur2 d => addStaff (row.getD d restShift) d 1 cur2)
      (List.replicate staffing.length 0) = List.replicate staffing.length 0
  rw [foldl_addStaff_rest hrow]

/-- C7 counterexample: for an input of exactly `days * (24*60/5)`
points (here one day at 5-minute slots, 288 points), the stored curve
has length 576, not `days * 288 = 288`: the padding loop runs from
`size % 288 = 0` and appends a full extra day of zeros. -/
theorem c7_target_pad_counterexample :
    (targetInit 5 1 (List.replicate 288 (1 : ℚ))).map List.length =
        .ok 576 ∧ 576 ≠ 1 * 288 := by
  constructor
  · unfold targetInit
    rw [if_neg (by norm_num : ¬ ((5 : ℕ) < 5)),
      if_neg (by norm_num : ¬ ((5 : ℕ) % 5 ≠ 0)),
      if_neg (by rw [List.length_replicate] ; norm_num :
        ¬ ((List.replicate 288 (1 : ℚ)).length < 1 * (24 * 60 / 5)))]
    show Except.map List.length (Except.ok
      (upsample (5 / 5) (List.replicate 288 1) ++
        List.replicate (SLOTS_DAY -
          (upsample (5 / 5) (List.replicate 288 1)).length % SLOTS_DAY) 0)) =
      Except.ok 576
    simp only [Except.map, List.length_append, List.length_replicate,
      upsample_length]
    norm_num [SLOTS_DAY, SLOT_LENGTH]
  · decide

/-- C2 at the failing input: starting from a consistent state, after
`mutate()` (candidate `c2mutd`) and `apply_mutation()`, the staffing
curve carries the candidate's contribution at slot 288 (day 1), but
the sum of the assigned shifts' contributions recomputed from scratch
is 0 there, because `updatePlan` — clipped at the number of agents
(1) — never wrote the candidate into days 1..6 of the plan row.  The
plan invariant `staffing = sum of contributions` is broken. -/
theorem c2_apply_mutation_breaks_invariant :
    staffingFromScratch c2plan = c2plan.staffing ∧
    ((applyMutation c2plan 0 0 c2mutd (mutateStf c2plan 0 0 c2mutd).1
        (mutateStf c2plan 0 0 c2mutd).2).map
      (fun p => (p.staffing.getD 288 0,
        (staffingFromScratch p).getD 288 0))).toOption =
      some (1, 0) ∧ (1 : ℚ) ≠ 0 := by
  have hzlen : (List.replicate (7 * SLOTS_DAY) (0 : ℚ)).length = 2016 := by
    rw [List.length_replicate]
    norm_num [SLOTS_DAY, SLOT_LENGTH]
  have hj : (288 : ℕ) < (List.replicate (7 * SLOTS_DAY) (0 : ℚ)).length := by
    rw [hzlen]; norm_num
  have hrow7 : ∀ d ∈ List.range 7,
      (List.replicate 7 restShift).getD d restShift = restShift :=
    fun _ _ => getD_replicate_self
  refine ⟨?_, ?_, by norm_num⟩
  · rw [show c2plan = (⟨[List.replicate 7 restShift],
        List.replicate (7 * SLOTS_DAY) 0, 7, 0⟩ : PlanState) from rfl]
    rw [staffingFromScratch_single_rest _ _ _ _ hrow7]
    rw [List.length_replicate]
  · simp only [mutateStf, c2plan, c2mutd,
      List.range_succ, List.range_zero, List.foldl_append, List.foldl_cons,
      List.foldl_nil, List.getD_cons_zero, List.getD_cons_succ,
      Nat.zero_mul, Nat.zero_add, addStaff_rest]
    simp only [applyMutation, updatePlan, updLine, List.length_cons,
      List.length_nil, Nat.zero_mul, Nat.zero_add, Nat.add_zero,
      Nat.sub_zero, Nat.reduceAdd, Nat.reduceGT, Nat.reduceLT, reduceIte,
      getD_replicate_self, addStaff_rest, List.getD_cons_zero,
      List.set_replicate_self, List.set_cons_zero, Except.map, Except.toOption,
      getD_replicate0, sub_zero, Nat.zero_le, true_and]
    simp only [Option.some.injEq, Prod.mk.injEq]
    refine ⟨?_, ?_⟩
    · rw [getD_mapIdxQ hj]
      simp only [getD_replicate0]
      have hlt : (288 : ℕ) < 7 * SLOTS_DAY := by
        norm_num [SLOTS_DAY, SLOT_LENGTH]
      rw [if_pos hlt, getD_addStaff_one hj,
        if_pos (by norm_num [SLOTS_DAY, SLOT_LENGTH] :
          1 * SLOTS_DAY + 0 / SLOT_LENGTH ≤ 288 ∧
            288 < 1 * SLOTS_DAY + 10 / SLOT_LENGTH),
        getD_replicate0]
      norm_num
    · rw [staffingFromScratch_single_rest _ _ _ _ hrow7]
      exact getD_replicate0

end Pywfplan
